import Mathlib

/-!
Verification of the path/URL translation, tree-reconstruction, history-scoping
and error-translation layer of the `oc_pyfs` repository (files
`oc_pyfs/SvnFS.py` and `oc_pyfs/NexusFS.py`).

Strings are embedded as `List Char`; every Python string primitive used by the
source (`strip('/')`, `lstrip('/')`, `replace(old, "")`, `replace(old, "", 1)`,
`startswith`, `os.path.dirname`, `os.path.basename`, `'/'.join`, `sorted`) is
modelled by an executable Lean function below, and the source's functions are
translated on top of them.
-/

/-- A helper to write string literals as `List Char`. -/
def toL (s : String) : List Char := s.toList

/-- Python `s.lstrip('/')`: removes every leading `'/'`. -/
def lstripSlashes : List Char → List Char
  | [] => []
  | c :: rest => if c = '/' then lstripSlashes rest else c :: rest

/-- Python `s.rstrip('/')`: removes every trailing `'/'`. -/
def rstripSlashes (s : List Char) : List Char :=
  (lstripSlashes s.reverse).reverse

/-- Python `s.strip('/')`: removes leading and trailing `'/'`. -/
def stripSlashes (s : List Char) : List Char :=
  rstripSlashes (lstripSlashes s)

/-- Python `s.replace(pat, "", 1)`: removes the first (leftmost) occurrence of
`pat` from `s`.  An empty pattern matches at position 0 and removes nothing,
as in Python. -/
def pyReplaceOnce : List Char → List Char → List Char
  | [], _ => []
  | c :: rest, pat =>
    if pat.isPrefixOf (c :: rest) then (c :: rest).drop pat.length
    else c :: pyReplaceOnce rest pat

/-- Fuelled worker for Python `s.replace(pat, "")` (remove every
non-overlapping occurrence of `pat`, scanning left to right).  The fuel is
always instantiated with the length of the string, which suffices because
every step consumes at least one character. -/
def pyReplaceAllFuel (pat : List Char) : Nat → List Char → List Char
  | _, [] => []
  | 0, c :: rest => c :: rest
  | fuel + 1, c :: rest =>
    if pat ≠ [] ∧ pat.isPrefixOf (c :: rest) then
      pyReplaceAllFuel pat fuel ((c :: rest).drop pat.length)
    else c :: pyReplaceAllFuel pat fuel rest

/-- Python `s.replace(pat, "")`: removes every non-overlapping occurrence of
`pat`, scanning left to right.  An empty pattern removes nothing. -/
def pyReplaceAll (s pat : List Char) : List Char :=
  pyReplaceAllFuel pat s.length s

/-- Python `os.path.basename` for POSIX paths: everything after the last
`'/'`. -/
def basename (p : List Char) : List Char :=
  ((p.reverse).takeWhile (fun c => c != '/')).reverse

/-- Python `os.path.dirname` for POSIX paths: everything up to the last `'/'`;
the trailing slashes are kept only when the head consists of slashes alone
(mirroring `posixpath.dirname`). -/
def dirname (p : List Char) : List Char :=
  let head := p.take (p.length - (basename p).length)
  if head.all (fun c => c == '/') then head else rstripSlashes head

/-- Python `sep.join(parts)`. -/
def joinWith (sep : List Char) : List (List Char) → List Char
  | [] => []
  | [x] => x
  | x :: y :: r => x ++ sep ++ joinWith sep (y :: r)

/-- `_join_url(*parts)` (SvnFS.py): `'/'.join(part.strip('/') for part in parts)`. -/
def join_url (parts : List (List Char)) : List Char :=
  joinWith ['/'] (parts.map stripSlashes)

/-- Python string `<=` (lexicographic comparison by code points), used to model
`sorted(...)` in `SvnWalker._get_walk_steps`. -/
def strLe : List Char → List Char → Bool
  | [], _ => true
  | _ :: _, [] => false
  | a :: as, b :: bs => if a = b then strLe as bs else decide (a < b)

/-! ### The SVN adapter's URL composer (SvnFS.py)

`SvnReadonlyFS` stores `repo_root` (repository root URL, `rstrip('/')`-ed at
construction) and `branch_relative` (base path relative to the root,
`strip('/')`-ed at construction).  Percent-escaping (`_get_pysvn_url`) only
happens on the way into the underlying client and never affects the values the
adapter returns, so it is outside this embedding. -/

structure SvnReadonlyFS where
  repo_root : List Char
  branch_relative : List Char
deriving DecidableEq

namespace SvnReadonlyFS

/-- `get_root_path_url` (SvnFS.py lines 207-226): appends a repository-root
relative path to the repository root URL. -/
def get_root_path_url (fs : SvnReadonlyFS) (repo_path : List Char) : List Char :=
  join_url [fs.repo_root, stripSlashes repo_path]

/-- `getsyspath` (SvnFS.py lines 197-205): full URL of a path relative to the
configured branch. -/
def getsyspath (fs : SvnReadonlyFS) (rel_path : List Char) : List Char :=
  fs.get_root_path_url (join_url [fs.branch_relative, stripSlashes rel_path])

/-- `_strip_to_base` (SvnFS.py lines 378-387): removes the branch from a path
relative to the repository root.  Note the bare Python
`path_from_root.replace(self.branch_relative.strip('/'), "")`, which removes
EVERY occurrence of the base, then `lstrip('/')`. -/
def strip_to_base (fs : SvnReadonlyFS) (path_from_root : List Char) : List Char :=
  lstripSlashes (pyReplaceAll path_from_root (stripSlashes fs.branch_relative))

/-- `_strip_dir_prefix` (SvnFS.py lines 389-398): removes a given directory
prefix (first occurrence only, `replace(dir_name, "", 1)`) when the path starts
with it, then `lstrip('/')`; otherwise returns the path unchanged. -/
def strip_dir_pfx (path pre : List Char) : List Char :=
  let dir_name := stripSlashes pre
  if dir_name.isPrefixOf path then lstripSlashes (pyReplaceOnce path dir_name)
  else path

/-- `_extract_requested_path` (SvnFS.py lines 368-376): base-stripping followed
by directory-prefix stripping, the inverse direction of the URL composer. -/
def extract_requested_path (fs : SvnReadonlyFS) (path_from_root branch_relative_base : List Char) :
    List Char :=
  strip_dir_pfx (fs.strip_to_base path_from_root) branch_relative_base

end SvnReadonlyFS

/-- The repository-root-relative form of an absolute URL produced by
`getsyspath`: the part after the repository root, without its leading slash.
This is exactly the `repos_path`-style value the underlying client reports for
that URL (cf. `_get_listing_info` and `listdir`, which consume
`repos_path` values). -/
def rootRelativePart (root url : List Char) : List Char :=
  lstripSlashes (url.drop (stripSlashes root).length)

/-- Modelled from the spec's words (spec section 4.1): base-stripping as "a
single non-repeating prefix removal (only the first occurrence is stripped)".
Defined only to compare against the source's `strip_to_base`. -/
def strip_to_base_specFirstOnly (fs : SvnReadonlyFS) (path_from_root : List Char) : List Char :=
  lstripSlashes (pyReplaceOnce path_from_root (stripSlashes fs.branch_relative))

/-! ### Error taxonomy (fs.errors) and the two error translators -/

/-- The pyfilesystem error kinds raised by the code under verification. -/
inductive FsError where
  | resourceNotFound (msg : List Char)
  | fileExpected (msg : List Char)
  | directoryExpected (msg : List Char)
  | unsupported (msg : List Char)
deriving DecidableEq

/-- The pysvn error codes the translator distinguishes; every other numeric
code is collapsed into `other`. -/
inductive SvnErrCode where
  | fs_not_found
  | ra_illegal_url
  | client_is_directory
  | other (n : Nat)
deriving DecidableEq

/-- A `pysvn.ClientError` as consumed by `_wrap_pysvn_error`: `err.args[0]` is
the message, `err.args[1]` the list of (message, code) pairs whose codes are
collected into `error_codes`. -/
structure PysvnClientError where
  msg : List Char
  codes : List SvnErrCode
deriving DecidableEq

/-- `_wrap_pysvn_error` (SvnFS.py lines 33-53), the translation applied when
the wrapped call raises `pysvn.ClientError`.  Logging the full stack before
the `Unsupported` fallback is a side effect outside this embedding. -/
def wrap_pysvn_error (err : PysvnClientError) : FsError :=
  if SvnErrCode.fs_not_found ∈ err.codes ∨ SvnErrCode.ra_illegal_url ∈ err.codes then
    FsError.resourceNotFound err.msg
  else if SvnErrCode.client_is_directory ∈ err.codes then
    FsError.fileExpected err.msg
  else
    FsError.unsupported err.msg

/-- The exceptions `_wrap_nexusapi_error` catches: a coded `NexusAPIError`
(with `str(err)` modelled by `msg`) or a generic `ValueError`. -/
inductive NexusExc where
  | nexusAPIError (code : Nat) (msg : List Char)
  | valueError (msg : List Char)
deriving DecidableEq

/-- Outcome of the Nexus error translator: either a translated filesystem
error is raised, or the original exception is re-raised unchanged. -/
inductive NexusOutcome where
  | raised (e : FsError)
  | reraised (e : NexusExc)
deriving DecidableEq

/-- `_wrap_nexusapi_error` (NexusFS.py lines 23-42), the translation applied
when the wrapped call raises.  Python's `"mandatory" in str(err)` is the
substring test `List.isInfixOf`. -/
def wrap_nexusapi_error : NexusExc → NexusOutcome
  | NexusExc.nexusAPIError code msg =>
    if code = 404 then NexusOutcome.raised (FsError.resourceNotFound (toL "Cannot find artifact: " ++ msg))
    else NexusOutcome.raised (FsError.unsupported (toL "Unknown error: " ++ msg))
  | NexusExc.valueError msg =>
    if (toL "mandatory") <:+: msg then
      NexusOutcome.raised (FsError.fileExpected (toL "Please specify full GAV: " ++ msg))
    else NexusOutcome.reraised (NexusExc.valueError msg)

/-! ### Listing: `_raw_svn_ls`, `listdir` (SvnFS.py lines 323-366)

A pysvn listing entry is consumed through `ent[0].repos_path` (path relative
to the repository root) and `ent[0].kind` (node kind); an entry is modelled as
that pair.  The network call itself is modelled by passing its raw result as
an argument. -/

/-- The pysvn node kinds. -/
inductive NodeKind where
  | file
  | dir
  | nodeNone
  | unknown
deriving DecidableEq

/-- `_raw_svn_ls` (SvnFS.py lines 358-366) after the `svn.list` call returned
`raw_ls`: raises `DirectoryExpected` when the single returned entry is a
file, otherwise drops the first entry (the requested directory itself). -/
def raw_svn_ls (url : List Char) (raw_ls : List (List Char × NodeKind)) :
    Except FsError (List (List Char × NodeKind)) :=
  match raw_ls with
  | [e] =>
    if e.2 = NodeKind.file then
      Except.error (FsError.directoryExpected (url ++ toL " is regular file"))
    else Except.ok []
  | l => Except.ok (l.drop 1)

namespace SvnReadonlyFS

/-- `listdir` (SvnFS.py lines 323-335) after the underlying non-recursive
listing returned `raw_ls`: re-roots the remaining entries to child names via
`_extract_requested_path` and drops entries whose stripped form is empty
(`filter(None, ...)`). -/
def listdir (fs : SvnReadonlyFS) (rel_path : List Char)
    (raw_ls : List (List Char × NodeKind)) : Except FsError (List (List Char)) :=
  match raw_svn_ls (fs.getsyspath rel_path) raw_ls with
  | Except.error e => Except.error e
  | Except.ok ls =>
    let ls_from_root := ls.map (fun ent => ent.1)
    let requested_listing := ls_from_root.map (fun entry => fs.extract_requested_path entry rel_path)
    Except.ok (requested_listing.filter (fun s => s != []))

end SvnReadonlyFS

/-! ### History: `_get_log_namespace` and its helpers (SvnFS.py lines 276-311)

A pysvn log entry is consumed through `entry["changed_paths"]`, each change
through `change["path"]`; all other fields are carried over unchanged by
`dict(entry)` / `dict(change, path=...)`, so an entry is modelled by its
revision number and the list of changed paths. -/

/-- A raw pysvn log entry: revision and the repository-root-relative paths of
its change records. -/
structure LogEntry where
  revision : Nat
  changed_paths : List (List Char)
deriving DecidableEq

namespace SvnReadonlyFS

/-- The `is_related` test inside `_exclude_unrelated_changes` (SvnFS.py line
300): the change's absolute URL equals the requested URL or starts with it
(Python `startswith`, i.e. plain string prefix). -/
def is_related (fs : SvnReadonlyFS) (rel_path changePath : List Char) : Bool :=
  let change_url := fs.get_root_path_url changePath
  let requested_url := fs.getsyspath (stripSlashes rel_path)
  change_url == requested_url || requested_url.isPrefixOf change_url

/-- `_exclude_unrelated_changes` (SvnFS.py lines 294-302). -/
def exclude_unrelated_changes (fs : SvnReadonlyFS) (entry : LogEntry) (rel_path : List Char) :
    LogEntry :=
  { entry with changed_paths := entry.changed_paths.filter (fs.is_related rel_path) }

/-- `_strip_entry_path` (SvnFS.py lines 304-311): rewrites each change path
via `_extract_requested_path` (the Python `map` object is consumed as the
list it denotes). -/
def strip_entry_path (fs : SvnReadonlyFS) (entry : LogEntry) (rel_path : List Char) : LogEntry :=
  { entry with changed_paths :=
      entry.changed_paths.map (fun c => fs.extract_requested_path c (stripSlashes rel_path)) }

/-- `_get_log_namespace` (SvnFS.py lines 276-292) after the underlying
`svn.log` call returned `raw_log`: filters each entry's change records to
related ones, drops entries left with no change record, then rewrites the
surviving paths.  The returned list is the `change_history` value. -/
def get_log_namespace (fs : SvnReadonlyFS) (rel_path : List Char) (raw_log : List LogEntry) :
    List LogEntry :=
  let log_without_unrelated := raw_log.map (fun entry => fs.exclude_unrelated_changes entry rel_path)
  let filtered_log := log_without_unrelated.filter (fun entry => 0 < entry.changed_paths.length)
  filtered_log.map (fun entry => fs.strip_entry_path entry rel_path)

/-- `_get_log_namespace` including the fetch (SvnFS.py lines 283-285):
`svn_log n` models `self.svn.log(url, ..., limit=n)`, where pysvn treats
`limit=0` as "no limit"; `limit.getD 0` mirrors `limit if limit else 0`
(both `None` and `0` are falsy in Python). -/
def get_log_namespace_limited (fs : SvnReadonlyFS) (rel_path : List Char)
    (svn_log : Nat → List LogEntry) (limit : Option Nat) : List LogEntry :=
  fs.get_log_namespace rel_path (svn_log (limit.getD 0))

end SvnReadonlyFS

/-! ### `getinfo` namespace handling (SvnFS.py lines 229-257) -/

/-- Python `int(...)` on a (digit-only) string, as used for the `log_N`
namespace limit. -/
def digitsToNat (s : List Char) : Nat :=
  s.foldl (fun a c => a * 10 + (c.toNat - 48)) 0

/-- The history limit computed by `getinfo` for the first log namespace
(SvnFS.py lines 251-255): `None` for `log`, otherwise
`int(log_ns.replace("log_", ""))`. -/
def getinfo_log_limit (log_ns : List Char) : Option Nat :=
  if log_ns = toL "log" then none
  else some (digitsToNat (pyReplaceAll log_ns (toL "log_")))

/-- The set of namespace keys present in the `Info` returned by `getinfo`
(SvnFS.py lines 239-257), given the requested namespace list: defaulting to
`["basic"]`, validation (`Unsupported` unless each namespace is `basic`,
`svn`, `log` or starts with `log_`), then `basic`, optionally `svn`, and the
FIRST namespace starting with `log` only (`log_namespaces[0]`). -/
def getinfo_namespace_keys (namespaces : List (List Char)) :
    Except FsError (List (List Char)) :=
  let nss := if namespaces = [] then [toL "basic"] else namespaces
  if nss.any (fun ns =>
      !(ns == toL "basic" || ns == toL "svn" || ns == toL "log") &&
      !((toL "log_").isPrefixOf ns)) then
    Except.error (FsError.unsupported
      (toL "Namespaces: " ++ joinWith (toL ", ") nss ++
       toL "; only basic, svn and log namespaces supported"))
  else
    let log_namespaces := nss.filter (fun ns => (toL "log").isPrefixOf ns)
    Except.ok ((toL "basic" :: (if toL "svn" ∈ nss then [toL "svn"] else [])) ++
      (match log_namespaces with
       | [] => []
       | log_ns :: _ => [log_ns]))

/-! ### The tree walker (SvnFS.py lines 56-123)

`SvnWalker.walk` allows only the root path, fetches ONE recursive listing
(`_get_listing_info`, whose entries are `(path, is_dir)` pairs re-rooted to
the walk root) and regroups it into steps (`_get_walk_steps`).  Python dicts
keyed by strings are modelled as association lists; indexing a missing key
(`KeyError`) surfaces as `none`.  `dir_info(name)` / `file_info(name)` wrap a
bare name together with an is-directory flag, so a step carries the child
names. -/

/-- One re-rooted recursive-listing entry: `(entry_path, is_dir)`. -/
abbrev LEntry := List Char × Bool

/-- Ordering used by `sorted(svn_pathes_info, key=lambda arg: arg[0])`. -/
def pathRel (a b : LEntry) : Prop := strLe a.1 b.1 = true

instance : DecidableRel pathRel := fun a b => inferInstanceAs (Decidable (strLe a.1 b.1 = true))

/-- First-match association-list lookup (Python dict read). -/
def alookup {α : Type} : List (List Char × α) → List Char → Option α
  | [], _ => none
  | (k, v) :: rest, q => if k = q then some v else alookup rest q

/-- Python dict assignment `m[k] = v`: replaces the binding when present,
otherwise appends it (insertion order). -/
def aset {α : Type} : List (List Char × α) → List Char → α → List (List Char × α)
  | [], k, v => [(k, v)]
  | (k', v') :: rest, k, v =>
    if k' = k then (k, v) :: rest else (k', v') :: aset rest k v

/-- Python `m[k].append(x)`: `none` models the `KeyError` when `k` is not a
key. -/
def aappend : List (List Char × List (List Char)) → List Char → List Char →
    Option (List (List Char × List (List Char)))
  | [], _, _ => none
  | (k', v) :: rest, k, x =>
    if k' = k then some ((k', v ++ [x]) :: rest)
    else (aappend rest k x).map (fun m => (k', v) :: m)

/-- The mutable state of `_get_walk_steps`' loop: `keys_order`,
`dir_structure`, `files_structure`. -/
structure WalkState where
  keysOrder : List (List Char)
  dirS : List (List Char × List (List Char))
  filesS : List (List Char × List (List Char))

/-- One iteration of the loop in `_get_walk_steps` (SvnFS.py lines 96-106). -/
def processEntry (st : WalkState) (e : LEntry) : Option WalkState :=
  let entry_dir := dirname e.1
  let entry_name := basename e.1
  if e.2 then
    let ks := st.keysOrder ++ [e.1]
    let dS := aset st.dirS e.1 []
    let fS := aset st.filesS e.1 []
    match aappend dS entry_dir entry_name with
    | none => none
    | some dS2 => some ⟨ks, dS2, fS⟩
  else
    match aappend st.filesS entry_dir entry_name with
    | none => none
    | some fS2 => some ⟨st.keysOrder, st.dirS, fS2⟩

/-- A walk step `(directory path, child directory names, child file names)`. -/
abbrev WalkStep := List Char × List (List Char) × List (List Char)

/-- `_get_walk_steps` (SvnFS.py lines 90-111).  Python's `sorted` is a stable
ascending sort by path and is modelled by the (stable) insertion sort with
the same comparator. -/
def walkSteps (l : List LEntry) : Option (List WalkStep) :=
  let sortedEntries := List.insertionSort pathRel l
  match sortedEntries.foldlM processEntry ⟨[['/']], [(['/'], [])], [(['/'], [])]⟩ with
  | none => none
  | some st => some (st.keysOrder.map fun k =>
      (k, (alookup st.dirS k).getD [], (alookup st.filesS k).getD []))

/-- `SvnWalker.walk` (SvnFS.py lines 77-88): any path other than `'/'` raises
`Unsupported`; the root walk issues the single recursive listing (passed here
as `listing`) and regroups it. -/
def SvnWalker_walk (path : List Char) (listing : List LEntry) :
    Except FsError (Option (List WalkStep)) :=
  if path = toL "/" then Except.ok (walkSteps listing)
  else Except.error (FsError.unsupported
    (toL "Only walking from / is supported. Use opendir() to walk subdirs"))

/-! ### Basic lemmas about the string primitives -/

theorem lstripSlashes_cons_slash (s : List Char) :
    lstripSlashes ('/' :: s) = lstripSlashes s := by
  simp [lstripSlashes]

theorem lstripSlashes_cons_of_ne {c : Char} (s : List Char) (h : c ≠ '/') :
    lstripSlashes (c :: s) = c :: s := by
  simp [lstripSlashes, h]

theorem lstripSlashes_head_ne {s s' : List Char} {c : Char}
    (h : lstripSlashes s = c :: s') : c ≠ '/' := by
  induction s with
  | nil => simp [lstripSlashes] at h
  | cons a r ih =>
    by_cases ha : a = '/'
    · subst ha
      rw [lstripSlashes_cons_slash] at h
      exact ih h
    · rw [lstripSlashes_cons_of_ne r ha] at h
      cases h
      exact ha

theorem lstripSlashes_idem (s : List Char) :
    lstripSlashes (lstripSlashes s) = lstripSlashes s := by
  induction s with
  | nil => rfl
  | cons a r ih =>
    by_cases ha : a = '/'
    · subst ha
      rw [lstripSlashes_cons_slash, ih]
    · rw [lstripSlashes_cons_of_ne r ha, lstripSlashes_cons_of_ne r ha]

theorem lstripSlashes_suffix (s : List Char) : lstripSlashes s <:+ s := by
  induction s with
  | nil => exact List.suffix_refl _
  | cons a r ih =>
    by_cases ha : a = '/'
    · subst ha
      rw [lstripSlashes_cons_slash]
      exact ih.trans (List.suffix_cons '/' r)
    · rw [lstripSlashes_cons_of_ne r ha]

theorem reverse_rstripSlashes (s : List Char) :
    (rstripSlashes s).reverse = lstripSlashes s.reverse := by
  simp [rstripSlashes]

theorem rstripSlashes_pfx (s : List Char) : rstripSlashes s <+: s := by
  have h := (lstripSlashes_suffix s.reverse).reverse
  rwa [List.reverse_reverse] at h

theorem rstripSlashes_idem (s : List Char) :
    rstripSlashes (rstripSlashes s) = rstripSlashes s := by
  simp [rstripSlashes, lstripSlashes_idem]

theorem rstripSlashes_append_slash (s : List Char) :
    rstripSlashes (s ++ ['/']) = rstripSlashes s := by
  simp [rstripSlashes, lstripSlashes_cons_slash]

theorem stripSlashes_head_ne {s s' : List Char} {c : Char}
    (h : stripSlashes s = c :: s') : c ≠ '/' := by
  rcases rstripSlashes_pfx (lstripSlashes s) with ⟨u, hu⟩
  rw [stripSlashes] at h
  rw [h] at hu
  exact lstripSlashes_head_ne hu.symm

theorem lstripSlashes_stripSlashes (s : List Char) :
    lstripSlashes (stripSlashes s) = stripSlashes s := by
  cases h : stripSlashes s with
  | nil => rfl
  | cons c t => exact lstripSlashes_cons_of_ne t (stripSlashes_head_ne h)

theorem stripSlashes_reverse_head_ne {s s' : List Char} {c : Char}
    (h : (stripSlashes s).reverse = c :: s') : c ≠ '/' := by
  rw [stripSlashes, reverse_rstripSlashes] at h
  exact lstripSlashes_head_ne h

theorem rstripSlashes_stripSlashes (s : List Char) :
    rstripSlashes (stripSlashes s) = stripSlashes s := by
  simp [stripSlashes, rstripSlashes_idem]

theorem stripSlashes_idem (s : List Char) :
    stripSlashes (stripSlashes s) = stripSlashes s := by
  rw [stripSlashes, lstripSlashes_stripSlashes, rstripSlashes_stripSlashes]

theorem stripSlashes_eq_self {s : List Char}
    (h1 : lstripSlashes s = s) (h2 : rstripSlashes s = s) : stripSlashes s = s := by
  rw [stripSlashes, h1, h2]

/-! ### Unfolding lemmas for `pyReplaceAll` -/

theorem pyReplaceAllFuel_of_le (pat : List Char) :
    ∀ n m s, s.length ≤ n → s.length ≤ m →
      pyReplaceAllFuel pat n s = pyReplaceAllFuel pat m s := by
  intro n
  induction n using Nat.strong_induction_on with
  | _ n ih =>
    intro m s hn hm
    match s, n, m with
    | [], n, m => cases n <;> cases m <;> rfl
    | c :: rest, n + 1, m + 1 =>
      have hn' : rest.length ≤ n := by simpa using hn
      have hm' : rest.length ≤ m := by simpa using hm
      simp only [pyReplaceAllFuel]
      by_cases hc : pat ≠ [] ∧ pat.isPrefixOf (c :: rest)
      · have hplen : 1 ≤ pat.length := by
          cases pat with
          | nil => exact absurd rfl hc.1
          | cons p ps => simp
        have hdl : ((c :: rest).drop pat.length).length ≤ n := by
          simp only [List.length_drop, List.length_cons]
          omega
        have hdm : ((c :: rest).drop pat.length).length ≤ m := by
          simp only [List.length_drop, List.length_cons]
          omega
        rw [if_pos hc, if_pos hc]
        exact ih n (Nat.lt_succ_self n) m _ hdl hdm
      · rw [if_neg hc, if_neg hc]
        exact congrArg (c :: ·) (ih n (Nat.lt_succ_self n) m rest hn' hm')

theorem pyReplaceAll_cons_pos {pat : List Char} {c : Char} {rest : List Char}
    (hp : pat ≠ []) (hpre : pat.isPrefixOf (c :: rest) = true) :
    pyReplaceAll (c :: rest) pat = pyReplaceAll ((c :: rest).drop pat.length) pat := by
  have hplen : 1 ≤ pat.length := by
    cases pat with
    | nil => exact absurd rfl hp
    | cons p ps => simp
  rw [pyReplaceAll, pyReplaceAll]
  simp only [pyReplaceAllFuel, List.length_cons]
  rw [if_pos ⟨hp, hpre⟩]
  exact pyReplaceAllFuel_of_le pat rest.length _ _
    (by simp only [List.length_drop, List.length_cons]; omega) (Nat.le_refl _)

theorem pyReplaceAll_cons_neg {pat : List Char} {c : Char} {rest : List Char}
    (h : ¬ (pat ≠ [] ∧ pat.isPrefixOf (c :: rest) = true)) :
    pyReplaceAll (c :: rest) pat = c :: pyReplaceAll rest pat := by
  rw [pyReplaceAll, pyReplaceAll]
  simp only [pyReplaceAllFuel, List.length_cons]
  rw [if_neg h]

theorem pyReplaceAll_head_drop {pat : List Char} (hp : pat ≠ []) (t : List Char) :
    pyReplaceAll (pat ++ t) pat = pyReplaceAll t pat := by
  cases pat with
  | nil => exact absurd rfl hp
  | cons p ps =>
    have hpre : (p :: ps).isPrefixOf ((p :: ps) ++ t) = true :=
      List.isPrefixOf_iff_prefix.mpr (List.prefix_append (p :: ps) t)
    have h1 : pyReplaceAll ((p :: ps) ++ t) (p :: ps) =
        pyReplaceAll (((p :: ps) ++ t).drop (p :: ps).length) (p :: ps) :=
      pyReplaceAll_cons_pos hp hpre
    rwa [List.drop_left] at h1

theorem pyReplaceAll_no_occ {pat s : List Char}
    (h : ∀ u, u <:+ s → ¬ pat <+: u) : pyReplaceAll s pat = s := by
  induction s with
  | nil => rfl
  | cons c rest ih =>
    have hc : ¬ (pat ≠ [] ∧ pat.isPrefixOf (c :: rest) = true) := by
      rintro ⟨-, hpre⟩
      exact h (c :: rest) (List.suffix_refl _) (List.isPrefixOf_iff_prefix.mp hpre)
    rw [pyReplaceAll_cons_neg hc]
    exact congrArg (c :: ·)
      (ih fun u hu => h u (hu.trans (List.suffix_cons c rest)))

theorem pyReplaceAll_append_right {pat : List Char} (s t : List Char)
    (h : ∀ u, u <:+ (s ++ t) → pat <+: u → u.length ≤ t.length) :
    pyReplaceAll (s ++ t) pat = s ++ pyReplaceAll t pat := by
  induction s with
  | nil => rfl
  | cons c rest ih =>
    have hc : ¬ (pat ≠ [] ∧ pat.isPrefixOf (c :: (rest ++ t)) = true) := by
      rintro ⟨-, hpre⟩
      have := h (c :: (rest ++ t)) (List.suffix_refl _)
        (List.isPrefixOf_iff_prefix.mp hpre)
      simp only [List.length_cons, List.length_append] at this
      omega
    rw [List.cons_append, pyReplaceAll_cons_neg hc]
    exact congrArg (c :: ·)
      (ih fun u hu hp => h u (hu.trans (List.suffix_cons c (rest ++ t))) hp)

theorem pyReplaceOnce_of_pref {s pat : List Char} (h : pat.isPrefixOf s = true) :
    pyReplaceOnce s pat = s.drop pat.length := by
  cases s with
  | nil =>
    have : pat = [] := by
      have h2 := List.isPrefixOf_iff_prefix.mp h
      simpa using h2
    subst this
    rfl
  | cons c rest =>
    rw [pyReplaceOnce, if_pos h]

/-! ### Claim C8: error translation tables -/

/-- C8: every underlying-client failure is translated per the mapping table,
with the rows checked in order: an SVN not-found or illegal-location code
gives `ResourceNotFound`, an is-a-directory code gives `FileExpected`, any
other SVN client error gives `Unsupported` (logging is a side effect outside
the model); a Nexus error coded 404 gives `ResourceNotFound`, any other code
gives `Unsupported`, and a `ValueError` gives `FileExpected` exactly when its
message contains "mandatory", otherwise it is re-raised unchanged. -/
theorem error_translation_follows_mapping_table :
    (∀ err : PysvnClientError,
      (wrap_pysvn_error err = FsError.resourceNotFound err.msg ↔
        (SvnErrCode.fs_not_found ∈ err.codes ∨ SvnErrCode.ra_illegal_url ∈ err.codes)) ∧
      (wrap_pysvn_error err = FsError.fileExpected err.msg ↔
        (SvnErrCode.client_is_directory ∈ err.codes ∧
          ¬ (SvnErrCode.fs_not_found ∈ err.codes ∨ SvnErrCode.ra_illegal_url ∈ err.codes))) ∧
      (wrap_pysvn_error err = FsError.unsupported err.msg ↔
        (¬ (SvnErrCode.fs_not_found ∈ err.codes ∨ SvnErrCode.ra_illegal_url ∈ err.codes) ∧
          SvnErrCode.client_is_directory ∉ err.codes))) ∧
    (∀ code msg, code = 404 →
      wrap_nexusapi_error (NexusExc.nexusAPIError code msg) =
        NexusOutcome.raised (FsError.resourceNotFound (toL "Cannot find artifact: " ++ msg))) ∧
    (∀ code msg, code ≠ 404 →
      wrap_nexusapi_error (NexusExc.nexusAPIError code msg) =
        NexusOutcome.raised (FsError.unsupported (toL "Unknown error: " ++ msg))) ∧
    (∀ msg, (toL "mandatory") <:+: msg →
      wrap_nexusapi_error (NexusExc.valueError msg) =
        NexusOutcome.raised (FsError.fileExpected (toL "Please specify full GAV: " ++ msg))) ∧
    (∀ msg, ¬ (toL "mandatory") <:+: msg →
      wrap_nexusapi_error (NexusExc.valueError msg) =
        NexusOutcome.reraised (NexusExc.valueError msg)) := by
  refine ⟨fun err => ?_, fun code msg h => ?_, fun code msg h => ?_,
    fun msg h => ?_, fun msg h => ?_⟩
  · by_cases h1 : SvnErrCode.fs_not_found ∈ err.codes ∨ SvnErrCode.ra_illegal_url ∈ err.codes <;>
      by_cases h2 : SvnErrCode.client_is_directory ∈ err.codes <;>
      simp [wrap_pysvn_error, h1, h2]
  · simp [wrap_nexusapi_error, h]
  · simp [wrap_nexusapi_error, h]
  · simp [wrap_nexusapi_error, h]
  · simp [wrap_nexusapi_error, h]

/-- Witness for C8 at concrete errors, one per table row. -/
theorem error_translation_follows_mapping_table_witness :
    wrap_pysvn_error ⟨toL "err", [SvnErrCode.fs_not_found]⟩ = FsError.resourceNotFound (toL "err") ∧
    wrap_pysvn_error ⟨toL "err", [SvnErrCode.client_is_directory]⟩ = FsError.fileExpected (toL "err") ∧
    wrap_pysvn_error ⟨toL "err", [SvnErrCode.other 1]⟩ = FsError.unsupported (toL "err") ∧
    wrap_nexusapi_error (NexusExc.nexusAPIError 404 (toL "gone")) =
      NexusOutcome.raised (FsError.resourceNotFound (toL "Cannot find artifact: " ++ toL "gone")) ∧
    wrap_nexusapi_error (NexusExc.nexusAPIError 500 (toL "boom")) =
      NexusOutcome.raised (FsError.unsupported (toL "Unknown error: " ++ toL "boom")) ∧
    wrap_nexusapi_error (NexusExc.valueError (toL "artifactId is mandatory")) =
      NexusOutcome.raised (FsError.fileExpected (toL "Please specify full GAV: " ++ toL "artifactId is mandatory")) ∧
    wrap_nexusapi_error (NexusExc.valueError (toL "bad value")) =
      NexusOutcome.reraised (NexusExc.valueError (toL "bad value")) :=
  ⟨(error_translation_follows_mapping_table.1 _).1.mpr (Or.inl (by decide)),
   (error_translation_follows_mapping_table.1 _).2.1.mpr ⟨by decide, by decide⟩,
   (error_translation_follows_mapping_table.1 _).2.2.mpr ⟨by decide, by decide⟩,
   error_translation_follows_mapping_table.2.1 404 _ rfl,
   error_translation_follows_mapping_table.2.2.1 500 _ (by decide),
   error_translation_follows_mapping_table.2.2.2.1 _ (by decide),
   error_translation_follows_mapping_table.2.2.2.2 _ (by decide)⟩

/-! ### Claim C10: only the first requested log namespace is computed -/

/-- C10: when the requested namespace list contains more than one log
namespace, only the first one appears as a key of the returned `Info`; the
later ones are silently absent. -/
theorem getinfo_uses_first_log_namespace_only
    (namespaces : List (List Char)) (l1 l2 : List Char) (rest : List (List Char))
    (hvalid : ∀ ns ∈ namespaces,
      ns = toL "basic" ∨ ns = toL "svn" ∨ ns = toL "log" ∨ (toL "log_").isPrefixOf ns = true)
    (hlogs : namespaces.filter (fun ns => (toL "log").isPrefixOf ns) = l1 :: l2 :: rest)
    (hne : l2 ≠ l1) :
    ∃ keys, getinfo_namespace_keys namespaces = Except.ok keys ∧ l1 ∈ keys ∧ l2 ∉ keys := by
  have hnss : ¬ namespaces = [] := by
    intro h
    rw [h] at hlogs
    simp at hlogs
  have hl2mem : l2 ∈ namespaces.filter (fun ns => (toL "log").isPrefixOf ns) := by
    rw [hlogs]
    exact List.mem_cons_of_mem _ (List.mem_cons_self _ _)
  have hl2pre : (toL "log").isPrefixOf l2 = true := (List.mem_filter.mp hl2mem).2
  have hany : namespaces.any (fun ns =>
      !(ns == toL "basic" || ns == toL "svn" || ns == toL "log") &&
      !((toL "log_").isPrefixOf ns)) = false := by
    rw [List.any_eq_false]
    intro ns hns
    rcases hvalid ns hns with h | h | h | h <;> simp [h]
  refine ⟨(toL "basic" :: (if toL "svn" ∈ namespaces then [toL "svn"] else [])) ++ [l1], ?_, ?_, ?_⟩
  · simp only [getinfo_namespace_keys, if_neg hnss, hany, Bool.false_eq_true, if_false, hlogs]
  · exact List.mem_append_right _ (List.mem_singleton.mpr rfl)
  · intro hmem
    rcases List.mem_append.mp hmem with hl | hr
    · rcases List.mem_cons.mp hl with h | h
      · rw [h] at hl2pre
        exact absurd hl2pre (by decide)
      · by_cases hsvn : toL "svn" ∈ namespaces
        · rw [if_pos hsvn] at h
          rw [List.mem_singleton.mp h] at hl2pre
          exact absurd hl2pre (by decide)
        · rw [if_neg hsvn] at h
          simp at h
    · exact hne (List.mem_singleton.mp hr)

/-- Witness for C10: requesting both `log` and `log_2` keeps only `log`. -/
theorem getinfo_uses_first_log_namespace_only_witness :
    ∃ keys, getinfo_namespace_keys [toL "log", toL "log_2"] = Except.ok keys ∧
      toL "log" ∈ keys ∧ toL "log_2" ∉ keys :=
  getinfo_uses_first_log_namespace_only [toL "log", toL "log_2"] (toL "log") (toL "log_2") []
    (by decide) (by decide) (by decide)

/-! ### Claim C7: `listdir` -/

/-- C7: `listdir` fails with `DirectoryExpected` exactly when the single
non-recursive listing call returns one entry whose node kind is `file`;
otherwise it drops the first returned entry (the requested directory itself)
and returns the remaining entries re-rooted to child names, dropping entries
whose stripped form is empty. -/
theorem listdir_characterisation (fs : SvnReadonlyFS) (rel_path : List Char)
    (raw_ls : List (List Char × NodeKind)) :
    ((∃ m, fs.listdir rel_path raw_ls = Except.error (FsError.directoryExpected m)) ↔
      (∃ e, raw_ls = [e] ∧ e.2 = NodeKind.file)) ∧
    ((¬ ∃ e, raw_ls = [e] ∧ e.2 = NodeKind.file) →
      fs.listdir rel_path raw_ls =
        Except.ok ((((raw_ls.drop 1).map (fun ent => ent.1)).map
          (fun entry => fs.extract_requested_path entry rel_path)).filter (fun s => s != []))) ∧
    (∀ s, s ∈ (((raw_ls.drop 1).map (fun ent => ent.1)).map
        (fun entry => fs.extract_requested_path entry rel_path)).filter (fun s => s != []) ↔
      (s ≠ [] ∧ ∃ ent ∈ raw_ls.drop 1, fs.extract_requested_path ent.1 rel_path = s)) := by
  refine ⟨?_, ?_, ?_⟩
  · match raw_ls with
    | [] =>
      constructor
      · rintro ⟨m, hm⟩
        simp [SvnReadonlyFS.listdir, raw_svn_ls] at hm
      · rintro ⟨e, he, -⟩
        simp at he
    | [e] =>
      by_cases hk : e.2 = NodeKind.file
      · constructor
        · intro
          exact ⟨e, rfl, hk⟩
        · intro
          exact ⟨fs.getsyspath rel_path ++ toL " is regular file", by
            simp [SvnReadonlyFS.listdir, raw_svn_ls, hk]⟩
      · constructor
        · rintro ⟨m, hm⟩
          simp [SvnReadonlyFS.listdir, raw_svn_ls, hk] at hm
        · rintro ⟨e', he', hk'⟩
          rw [List.cons.injEq] at he'
          rw [← he'.1] at hk'
          exact absurd hk' hk
    | e1 :: e2 :: t =>
      constructor
      · rintro ⟨m, hm⟩
        simp [SvnReadonlyFS.listdir, raw_svn_ls] at hm
      · rintro ⟨e', he', -⟩
        simp at he'
  · intro hno
    match raw_ls with
    | [] => rfl
    | [e] =>
      have hk : ¬ e.2 = NodeKind.file := fun h => hno ⟨e, rfl, h⟩
      simp [SvnReadonlyFS.listdir, raw_svn_ls, hk]
    | e1 :: e2 :: t => rfl
  · intro s
    simp only [List.mem_filter, List.mem_map, bne_iff_ne, ne_eq]
    constructor
    · rintro ⟨⟨q, ⟨ent, hent, rfl⟩, rfl⟩, hne⟩
      exact ⟨hne, ent, hent, rfl⟩
    · rintro ⟨hne, ent, hent, rfl⟩
      exact ⟨⟨ent.1, ⟨ent, hent, rfl⟩, rfl⟩, hne⟩

/-- Witness for C7: listing `foo` (a directory with a file `a` and a
subdirectory `b`) drops the self entry and re-roots the rest. -/
theorem listdir_characterisation_witness :
    (SvnReadonlyFS.mk (toL "http://host/repo") (toL "branch")).listdir (toL "foo")
      [(toL "/branch/foo", NodeKind.dir), (toL "/branch/foo/a", NodeKind.file),
       (toL "/branch/foo/b", NodeKind.dir)] =
      Except.ok [toL "a", toL "b"] :=
  ((listdir_characterisation (SvnReadonlyFS.mk (toL "http://host/repo") (toL "branch"))
      (toL "foo")
      [(toL "/branch/foo", NodeKind.dir), (toL "/branch/foo/a", NodeKind.file),
       (toL "/branch/foo/b", NodeKind.dir)]).2.1
    (by rintro ⟨e, he, -⟩; simp at he)).trans (congrArg Except.ok (by decide))

/-! ### Claim C4: the relatedness filter on history change records -/

/-- Counterexample to C4: querying the subtree `foo` of branch `branch`, the
change record `/branch/foo_bar/f` of a textual-prefix SIBLING subtree is
retained by `_exclude_unrelated_changes` (the bare `startswith` test
matches), although its absolute URL neither equals the requested URL nor is
nested beneath it. -/
theorem exclude_unrelated_retains_textual_sibling_cex :
    (SvnReadonlyFS.mk (toL "http://host/repo") (toL "branch")).exclude_unrelated_changes
        ⟨7, [toL "/branch/foo_bar/f"]⟩ (toL "foo") = ⟨7, [toL "/branch/foo_bar/f"]⟩ ∧
    ((SvnReadonlyFS.mk (toL "http://host/repo") (toL "branch")).get_root_path_url
        (toL "/branch/foo_bar/f") ≠
      (SvnReadonlyFS.mk (toL "http://host/repo") (toL "branch")).getsyspath
        (stripSlashes (toL "foo"))) ∧
    ¬ (((SvnReadonlyFS.mk (toL "http://host/repo") (toL "branch")).getsyspath
          (stripSlashes (toL "foo")) ++ ['/']) <+:
        (SvnReadonlyFS.mk (toL "http://host/repo") (toL "branch")).get_root_path_url
          (toL "/branch/foo_bar/f")) := by
  decide

/-- C4 as amended: a change record is retained if and only if the requested
subtree's absolute URL is a plain string prefix of the record's absolute URL
(equality included); this prefix test CAN falsely match a sibling subtree
whose name shares a textual prefix with the requested one (see the
counterexample). -/
theorem exclude_unrelated_iff_url_string_pfx (fs : SvnReadonlyFS) (entry : LogEntry)
    (rel_path c : List Char) :
    c ∈ (fs.exclude_unrelated_changes entry rel_path).changed_paths ↔
      (c ∈ entry.changed_paths ∧
        (fs.getsyspath (stripSlashes rel_path)) <+: (fs.get_root_path_url c)) := by
  simp only [SvnReadonlyFS.exclude_unrelated_changes, List.mem_filter,
    SvnReadonlyFS.is_related, Bool.or_eq_true, beq_iff_eq, List.isPrefixOf_iff_prefix]
  constructor
  · rintro ⟨hm, heq | hpre⟩
    · rw [heq]
      exact ⟨hm, List.prefix_refl _⟩
    · exact ⟨hm, hpre⟩
  · rintro ⟨hm, hpre⟩
    exact ⟨hm, Or.inr hpre⟩

/-! ### Claim C6: `log_N` returns at most N entries -/

/-- C6 as amended (for N ≥ 1): when the underlying fetch honours its limit,
the `log_N` history pipeline returns at most N entries (the relatedness
filter and path rewriting only remove or rewrite entries). -/
theorem log_namespace_at_most_limit (fs : SvnReadonlyFS) (rel_path : List Char)
    (svn_log : Nat → List LogEntry) (N : Nat) (_hN : 0 < N)
    (hfetch : (svn_log N).length ≤ N) :
    (fs.get_log_namespace_limited rel_path svn_log (some N)).length ≤ N := by
  simp only [SvnReadonlyFS.get_log_namespace_limited, SvnReadonlyFS.get_log_namespace,
    Option.getD_some, List.length_map]
  exact le_trans (le_trans (List.length_filter_le _ _) (by rw [List.length_map])) hfetch

/-- Witness for C6 (amended): a fetch of one related entry under limit 2
yields at most 2 history entries. -/
theorem log_namespace_at_most_limit_witness :
    ((SvnReadonlyFS.mk (toL "http://host/repo") (toL "branch")).get_log_namespace_limited
      (toL "foo") (fun _ => [⟨5, [toL "/branch/foo"]⟩]) (some 2)).length ≤ 2 :=
  log_namespace_at_most_limit _ _ _ 2 (by decide) (by decide)

/-- Counterexample to C6 as stated ("for every N"): for N = 0 the namespace
`log_0` parses to limit 0, `limit if limit else 0` passes 0 to the fetch,
which for pysvn means NO limit, so the returned history can have more than
0 entries: here exactly one. -/
theorem log_namespace_limit_zero_cex :
    getinfo_log_limit (toL "log_0") = some 0 ∧
    ((SvnReadonlyFS.mk (toL "http://host/repo") (toL "branch")).get_log_namespace_limited
        (toL "foo")
        (fun n => if n = 0 then [⟨3, [toL "/branch/foo"]⟩] else [])
        (getinfo_log_limit (toL "log_0"))).length = 1 := by
  decide

/-! ### Claim C2: base-stripping removes every occurrence, not the first only -/

/-- Counterexample to C2: with Branch-Relative Base `branches/b1`, the
root-relative path `branches/b1/x/branches/b1/y` IS double-stripped by
`_strip_to_base` (Python `replace` with no count removes every occurrence),
unlike the single first-occurrence removal the spec describes. -/
theorem strip_to_base_first_occurrence_cex :
    (SvnReadonlyFS.mk (toL "http://host/repo") (toL "branches/b1")).strip_to_base
        (toL "branches/b1/x/branches/b1/y") = toL "x//y" ∧
    strip_to_base_specFirstOnly (SvnReadonlyFS.mk (toL "http://host/repo") (toL "branches/b1"))
        (toL "branches/b1/x/branches/b1/y") = toL "x/branches/b1/y" ∧
    toL "x//y" ≠ toL "x/branches/b1/y" := by
  decide

/-- C2 as amended: the DIRECTORY-PREFIX stripping step (`_strip_dir_prefix`)
removes only the first occurrence — stripping a path that starts with the
prefix leaves any later textual repetition of it intact — while the
BASE-stripping step (`_strip_to_base`) removes every occurrence of the base,
so a path whose later segments textually repeat the base is double-stripped
(second conjunct, for a path of shape `base/x/base/y` whose only base
occurrences are the two shown). -/
theorem strip_dir_first_only_strip_base_every_occurrence :
    (∀ d t : List Char, stripSlashes d = d →
      SvnReadonlyFS.strip_dir_pfx (d ++ t) d = lstripSlashes t) ∧
    (∀ (root br y : List Char) (c : Char) (cs : List Char),
      stripSlashes br = br → br ≠ [] → c ≠ '/' →
      (∀ u ∈ (('/' :: (c :: cs) ++ ['/']) ++ (br ++ '/' :: y)).tails,
        br <+: u → u.length ≤ (br ++ '/' :: y).length) →
      (∀ u ∈ ('/' :: y).tails, ¬ br <+: u) →
      (SvnReadonlyFS.mk root br).strip_to_base
          (br ++ '/' :: ((c :: cs) ++ '/' :: (br ++ '/' :: y))) =
        (c :: cs) ++ '/' :: '/' :: y) := by
  constructor
  · intro d t hd
    have hpre : d.isPrefixOf (d ++ t) = true :=
      List.isPrefixOf_iff_prefix.mpr (List.prefix_append d t)
    rw [SvnReadonlyFS.strip_dir_pfx]
    simp only [hd, hpre, if_true, if_pos]
    rw [pyReplaceOnce_of_pref hpre, List.drop_left]
  · intro root br y c cs hbr hbrne hc hmid hend
    have hshape : br ++ '/' :: ((c :: cs) ++ '/' :: (br ++ '/' :: y)) =
        br ++ (('/' :: (c :: cs) ++ ['/']) ++ (br ++ '/' :: y)) := by
      simp
    rw [SvnReadonlyFS.strip_to_base]
    show lstripSlashes (pyReplaceAll _ (stripSlashes br)) = _
    rw [hbr, hshape, pyReplaceAll_head_drop hbrne,
      pyReplaceAll_append_right _ _
        (fun u hu hp => hmid u ((List.mem_tails _ _).mpr hu) hp),
      pyReplaceAll_head_drop hbrne,
      pyReplaceAll_no_occ (fun u hu hp => hend u ((List.mem_tails _ _).mpr hu) hp)]
    simp only [List.cons_append, List.append_assoc, List.singleton_append]
    rw [lstripSlashes_cons_slash, lstripSlashes_cons_of_ne _ hc]
    simp

/-- Witness for C2 (amended): `_strip_dir_prefix` strips `foo` from
`foo/foo/z` once only, and `_strip_to_base` double-strips
`branches/b1/x/branches/b1/y`. -/
theorem strip_dir_first_only_strip_base_every_occurrence_witness :
    SvnReadonlyFS.strip_dir_pfx (toL "foo" ++ toL "/foo/z") (toL "foo") =
      lstripSlashes (toL "/foo/z") ∧
    (SvnReadonlyFS.mk (toL "http://host/repo") (toL "branches/b1")).strip_to_base
        (toL "branches/b1" ++ '/' :: ((('x' : Char) :: []) ++ '/' :: (toL "branches/b1" ++ '/' :: toL "y"))) =
      (('x' : Char) :: []) ++ '/' :: '/' :: toL "y" :=
  ⟨strip_dir_first_only_strip_base_every_occurrence.1 (toL "foo") (toL "/foo/z") (by decide),
   strip_dir_first_only_strip_base_every_occurrence.2 (toL "http://host/repo")
     (toL "branches/b1") (toL "y") 'x' [] (by decide) (by decide) (by decide)
     (by decide) (by decide)⟩

/-! ### Claim C5: history entries after filtering and rewriting -/

theorem lstripSlashes_extract (fs : SvnReadonlyFS) (pfr base : List Char) :
    lstripSlashes (fs.extract_requested_path pfr base) = fs.extract_requested_path pfr base := by
  rw [SvnReadonlyFS.extract_requested_path, SvnReadonlyFS.strip_dir_pfx]
  split
  · exact lstripSlashes_idem _
  · rw [SvnReadonlyFS.strip_to_base]
    exact lstripSlashes_idem _

/-- Counterexample to C5: querying the whole branch (`rel_path = ""`) of
branch `branch`, a revision whose change record path is
`/branch/.branch./z` survives the relatedness filter, and the replace-every-
occurrence base-stripping rewrites it to `../z` — a `..`-style traversal that
escapes the queried subtree. -/
theorem history_rewrite_escapes_subtree_cex :
    (SvnReadonlyFS.mk (toL "http://host/repo") (toL "branch")).get_log_namespace (toL "")
        [⟨5, [toL "/branch/.branch./z"]⟩] = [⟨5, [toL "../z"]⟩] ∧
    (toL "../") <+: (toL "../z") := by
  decide

/-- C5 as amended: every entry returned by the history pipeline has at least
one change record (entries whose records were all filtered out are dropped),
and every rewritten change path is free of leading slashes; the rewritten
path may however contain `..` traversal segments and escape the queried
subtree when a path segment textually contains the base (see the
counterexample). -/
theorem history_entries_nonempty_and_lstripped (fs : SvnReadonlyFS) (rel_path : List Char)
    (raw_log : List LogEntry) (e : LogEntry)
    (he : e ∈ fs.get_log_namespace rel_path raw_log) :
    e.changed_paths ≠ [] ∧ ∀ p ∈ e.changed_paths, lstripSlashes p = p := by
  rw [SvnReadonlyFS.get_log_namespace] at he
  rcases List.mem_map.mp he with ⟨e', he', rfl⟩
  have hlen : 0 < e'.changed_paths.length := by
    have h2 := (List.mem_filter.mp he').2
    simpa using h2
  constructor
  · have hlen2 : 0 < (fs.strip_entry_path e' rel_path).changed_paths.length := by
      simpa [SvnReadonlyFS.strip_entry_path] using hlen
    exact List.ne_nil_of_length_pos hlen2
  · intro p hp
    rw [SvnReadonlyFS.strip_entry_path] at hp
    rcases List.mem_map.mp hp with ⟨c, -, rfl⟩
    exact lstripSlashes_extract fs c (stripSlashes rel_path)

/-- Witness for C5 (amended) at a concrete one-entry history of `foo`. -/
theorem history_entries_nonempty_and_lstripped_witness :
    ((⟨4, [toL "q"]⟩ : LogEntry).changed_paths ≠ [] ∧
      ∀ p ∈ (⟨4, [toL "q"]⟩ : LogEntry).changed_paths, lstripSlashes p = p) :=
  history_entries_nonempty_and_lstripped
    (SvnReadonlyFS.mk (toL "http://host/repo") (toL "branch")) (toL "foo")
    [⟨4, [toL "/branch/foo/q"]⟩] ⟨4, [toL "q"]⟩ (by decide)

/-! ### Claim C1: the URL-composition round trip -/

theorem join_url_pair (a b : List Char) :
    join_url [a, b] = stripSlashes a ++ '/' :: stripSlashes b := by
  simp [join_url, joinWith]

theorem strip_dir_pfx_nil (s : List Char) :
    SvnReadonlyFS.strip_dir_pfx s [] = lstripSlashes s := by
  have hpre : ([] : List Char).isPrefixOf s = true :=
    List.isPrefixOf_iff_prefix.mpr (List.nil_prefix)
  rw [SvnReadonlyFS.strip_dir_pfx]
  show (if ([] : List Char).isPrefixOf s then lstripSlashes (pyReplaceOnce s []) else s) = _
  rw [if_pos hpre, pyReplaceOnce_of_pref hpre]
  simp

/-- Counterexample to C1 as stated ("for every virtual path p"): with
Branch-Relative Base `trunk`, the virtual path `trunk2/file` does NOT round
trip — composing and stripping back yields `2/file`, because the
base-stripping removes every occurrence of `trunk`, including the one inside
the segment `trunk2`. -/
theorem getsyspath_roundtrip_cex :
    (SvnReadonlyFS.mk (toL "http://svn/repo") (toL "trunk")).extract_requested_path
        (rootRelativePart (toL "http://svn/repo")
          ((SvnReadonlyFS.mk (toL "http://svn/repo") (toL "trunk")).getsyspath
            (toL "trunk2/file")))
        [] = toL "2/file" ∧
    toL "2/file" ≠ stripSlashes (toL "trunk2/file") := by
  decide

/-- C1 as amended: the round trip
`extract_requested_path (root-relative form of getsyspath p) = strip p`
holds for every virtual path `p` (ASCII or not — characters are arbitrary)
PROVIDED the stripped Branch-Relative Base is nonempty and does not occur as
a substring of the stripped `p` (the counterexample shows the substring
proviso is necessary). -/
theorem getsyspath_extract_roundtrip (fs : SvnReadonlyFS) (p : List Char)
    (hbr : stripSlashes fs.branch_relative ≠ [])
    (hsub : ¬ (stripSlashes fs.branch_relative) <:+: (stripSlashes p)) :
    fs.extract_requested_path (rootRelativePart fs.repo_root (fs.getsyspath p)) [] =
      stripSlashes p := by
  obtain ⟨c, t, hct⟩ := List.exists_cons_of_ne_nil hbr
  have hchead : c ≠ '/' := stripSlashes_head_ne hct
  have hurl : fs.getsyspath p = stripSlashes fs.repo_root ++
      '/' :: stripSlashes (stripSlashes fs.branch_relative ++ '/' :: stripSlashes p) := by
    rw [SvnReadonlyFS.getsyspath, SvnReadonlyFS.get_root_path_url, join_url_pair, join_url_pair,
      stripSlashes_idem, stripSlashes_idem]
  rw [hurl, rootRelativePart, List.drop_left, lstripSlashes_cons_slash,
    lstripSlashes_stripSlashes]
  cases hp0 : stripSlashes p with
  | nil =>
    have hY : stripSlashes (stripSlashes fs.branch_relative ++ '/' :: ([] : List Char)) =
        stripSlashes fs.branch_relative := by
      have hl : lstripSlashes (stripSlashes fs.branch_relative ++ ['/']) =
          stripSlashes fs.branch_relative ++ ['/'] := by
        rw [hct, List.cons_append]
        exact lstripSlashes_cons_of_ne _ hchead
      rw [stripSlashes, hl, rstripSlashes_append_slash, rstripSlashes_stripSlashes]
    rw [hY, SvnReadonlyFS.extract_requested_path, SvnReadonlyFS.strip_to_base]
    have hrepl : pyReplaceAll (stripSlashes fs.branch_relative)
        (stripSlashes fs.branch_relative) = [] := by
      have h := pyReplaceAll_head_drop hbr ([] : List Char)
      rwa [List.append_nil] at h
    rw [hrepl]
    rw [show lstripSlashes [] = [] from rfl, strip_dir_pfx_nil]
    rfl
  | cons q qs =>
    have hq : q ≠ '/' := stripSlashes_head_ne hp0
    have hqrev : ∀ d ds, (q :: qs).reverse = d :: ds → d ≠ '/' := by
      intro d ds hrev
      exact stripSlashes_reverse_head_ne (s := p) (by rw [hp0, hrev])
    have hXl : lstripSlashes (stripSlashes fs.branch_relative ++ '/' :: q :: qs) =
        stripSlashes fs.branch_relative ++ '/' :: q :: qs := by
      rw [hct, List.cons_append]
      exact lstripSlashes_cons_of_ne _ hchead
    have hXr : rstripSlashes (stripSlashes fs.branch_relative ++ '/' :: q :: qs) =
        stripSlashes fs.branch_relative ++ '/' :: q :: qs := by
      have hrevne : (q :: qs).reverse ≠ [] := by simp
      obtain ⟨d, ds, hds⟩ := List.exists_cons_of_ne_nil hrevne
      have hdne : d ≠ '/' := hqrev d ds hds
      have hrevX : (stripSlashes fs.branch_relative ++ '/' :: q :: qs).reverse =
          d :: (ds ++ '/' :: (stripSlashes fs.branch_relative).reverse) := by
        rw [List.reverse_append]
        rw [show ('/' :: q :: qs).reverse = (q :: qs).reverse ++ ['/'] from by simp, hds]
        simp
      rw [rstripSlashes, hrevX, lstripSlashes_cons_of_ne _ hdne, ← hrevX,
        List.reverse_reverse]
    rw [show stripSlashes (stripSlashes fs.branch_relative ++ '/' :: q :: qs) =
        stripSlashes fs.branch_relative ++ '/' :: q :: qs from by
      rw [stripSlashes, hXl, hXr]]
    rw [SvnReadonlyFS.extract_requested_path, SvnReadonlyFS.strip_to_base,
      pyReplaceAll_head_drop hbr]
    have hnoocc : pyReplaceAll ('/' :: q :: qs) (stripSlashes fs.branch_relative) =
        '/' :: q :: qs := by
      apply pyReplaceAll_no_occ
      intro u hu hp
      rcases List.suffix_cons_iff.mp hu with h | h
      · rw [h, hct] at hp
        exact hchead (List.cons_prefix_cons.mp hp).1
      · exact hsub (by
          rw [hp0]
          exact List.infix_iff_prefix_suffix.mpr ⟨u, hp, h⟩)
    rw [hnoocc, lstripSlashes_cons_slash, lstripSlashes_cons_of_ne _ hq, strip_dir_pfx_nil,
      lstripSlashes_cons_of_ne _ hq]

/-- Witness for C1 (amended) at base `branches/b1` and virtual path
`/dir/file.txt/`. -/
theorem getsyspath_extract_roundtrip_witness :
    (SvnReadonlyFS.mk (toL "http://svn/repo") (toL "branches/b1")).extract_requested_path
        (rootRelativePart (toL "http://svn/repo")
          ((SvnReadonlyFS.mk (toL "http://svn/repo") (toL "branches/b1")).getsyspath
            (toL "/dir/file.txt/")))
        [] = stripSlashes (toL "/dir/file.txt/") :=
  getsyspath_extract_roundtrip
    (SvnReadonlyFS.mk (toL "http://svn/repo") (toL "branches/b1"))
    (toL "/dir/file.txt/") (by decide) (by decide)

/-! ### Claim C3: infrastructure — the lexicographic order used by `sorted` -/

theorem strLe_trans : ∀ (a b c : List Char),
    strLe a b = true → strLe b c = true → strLe a c = true
  | [], _, _, _, _ => rfl
  | _ :: _, [], _, hab, _ => by simp [strLe] at hab
  | _ :: _, _ :: _, [], _, hbc => by simp [strLe] at hbc
  | a :: as, b :: bs, c :: cs, hab, hbc => by
    by_cases h1 : a = b <;> by_cases h2 : b = c
    · subst h1; subst h2
      rw [strLe, if_pos rfl] at *
      exact strLe_trans as bs cs hab hbc
    · subst h1
      rw [strLe, if_neg h2] at hbc ⊢
      exact hbc
    · subst h2
      rw [strLe, if_neg h1] at hab ⊢
      exact hab
    · rw [strLe, if_neg h1] at hab
      rw [strLe, if_neg h2] at hbc
      have hac : a < c := lt_trans (of_decide_eq_true hab) (of_decide_eq_true hbc)
      have hne : a ≠ c := ne_of_lt hac
      rw [strLe, if_neg hne]
      exact decide_eq_true hac

theorem strLe_total : ∀ (a b : List Char), strLe a b = true ∨ strLe b a = true
  | [], _ => Or.inl rfl
  | _ :: _, [] => Or.inr rfl
  | a :: as, b :: bs => by
    by_cases h : a = b
    · subst h
      rcases strLe_total as bs with h2 | h2
      · exact Or.inl (by rw [strLe, if_pos rfl]; exact h2)
      · exact Or.inr (by rw [strLe, if_pos rfl]; exact h2)
    · rcases lt_or_gt_of_ne h with hlt | hgt
      · exact Or.inl (by rw [strLe, if_neg h]; exact decide_eq_true hlt)
      · exact Or.inr (by rw [strLe, if_neg (Ne.symm h)]; exact decide_eq_true hgt)

theorem strLe_antisymm : ∀ (a b : List Char),
    strLe a b = true → strLe b a = true → a = b
  | [], [], _, _ => rfl
  | [], _ :: _, _, hba => by simp [strLe] at hba
  | _ :: _, [], hab, _ => by simp [strLe] at hab
  | a :: as, b :: bs, hab, hba => by
    by_cases h : a = b
    · subst h
      rw [strLe, if_pos rfl] at hab hba
      rw [strLe_antisymm as bs hab hba]
    · rw [strLe, if_neg h] at hab
      rw [strLe, if_neg (Ne.symm h)] at hba
      exact absurd (of_decide_eq_true hba) (lt_asymm (of_decide_eq_true hab))

theorem strLe_of_pref : ∀ {a b : List Char}, a <+: b → strLe a b = true
  | [], _, _ => rfl
  | a :: as, b, h => by
    obtain ⟨t, rfl⟩ := h
    rw [List.cons_append, strLe, if_pos rfl]
    exact strLe_of_pref (List.prefix_append as t)

instance : IsTrans LEntry pathRel :=
  ⟨fun a b c hab hbc => strLe_trans a.1 b.1 c.1 hab hbc⟩

instance : IsTotal LEntry pathRel :=
  ⟨fun a b => strLe_total a.1 b.1⟩

/-! ### Claim C3: infrastructure — well-formed repository paths -/

/-- `/`-joined nonempty path segments. -/
def joinSegs : List (List Char) → List Char
  | [] => []
  | [s] => s
  | s :: t :: r => s ++ '/' :: joinSegs (t :: r)

/-- A well-formed repository-relative path as produced by a recursive svn
listing re-rooted in `_get_listing_info`: a leading slash followed by one or
more nonempty slash-free segments. -/
def SvnPath (p : List Char) : Prop :=
  ∃ segs : List (List Char), segs ≠ [] ∧ (∀ s ∈ segs, s ≠ [] ∧ '/' ∉ s) ∧
    p = '/' :: joinSegs segs

theorem joinSegs_ne_nil {segs : List (List Char)} (hne : segs ≠ [])
    (hv : ∀ s ∈ segs, s ≠ [] ∧ '/' ∉ s) : joinSegs segs ≠ [] := by
  match segs with
  | [] => exact absurd rfl hne
  | [s] => exact (hv s (List.mem_singleton.mpr rfl)).1
  | s :: t :: r =>
    rw [joinSegs]
    intro h
    rcases List.append_eq_nil.mp h with ⟨-, h2⟩
    cases h2

theorem joinSegs_snoc : ∀ (xs : List (List Char)) (x : List Char), xs ≠ [] →
    joinSegs (xs ++ [x]) = joinSegs xs ++ '/' :: x
  | [], _, h => absurd rfl h
  | [x0], x, _ => rfl
  | x0 :: x1 :: r, x, _ => by
    show joinSegs (x0 :: x1 :: (r ++ [x])) = _
    rw [joinSegs, show x1 :: (r ++ [x]) = (x1 :: r) ++ [x] from rfl,
      joinSegs_snoc (x1 :: r) x (by simp), joinSegs]
    simp

theorem joinSegs_rev_head : ∀ (segs : List (List Char)), segs ≠ [] →
    (∀ s ∈ segs, s ≠ [] ∧ '/' ∉ s) →
    ∃ d ds, (joinSegs segs).reverse = d :: ds ∧ d ≠ '/'
  | [], h, _ => absurd rfl h
  | [s], _, hv => by
    have hs := hv s (List.mem_singleton.mpr rfl)
    have hrevne : s.reverse ≠ [] := by simpa using hs.1
    obtain ⟨d, ds, hds⟩ := List.exists_cons_of_ne_nil hrevne
    refine ⟨d, ds, by rw [joinSegs, hds], fun hd => ?_⟩
    have hmem : d ∈ s.reverse := by rw [hds]; exact List.mem_cons_self _ _
    rw [List.mem_reverse] at hmem
    exact hs.2 (hd ▸ hmem)
  | s :: t :: r, _, hv => by
    obtain ⟨d, ds, hds, hdne⟩ := joinSegs_rev_head (t :: r) (by simp)
      (fun x hx => hv x (List.mem_cons_of_mem s hx))
    refine ⟨d, ds ++ '/' :: s.reverse, ?_, hdne⟩
    rw [joinSegs, List.reverse_append, List.reverse_cons, hds]
    simp

theorem rstripSlashes_eq_self_of_rev {s : List Char}
    (h : ∀ d ds, s.reverse = d :: ds → d ≠ '/') : rstripSlashes s = s := by
  cases hrev : s.reverse with
  | nil =>
    have : s = [] := by simpa using congrArg List.reverse hrev
    rw [this]
    rfl
  | cons d ds =>
    rw [rstripSlashes, hrev, lstripSlashes_cons_of_ne _ (h d ds hrev), ← hrev,
      List.reverse_reverse]

theorem svnPath_ne_nil {p : List Char} (h : SvnPath p) : p ≠ [] := by
  obtain ⟨segs, -, -, rfl⟩ := h
  simp

theorem svnPath_ne_root {p : List Char} (h : SvnPath p) : p ≠ ['/'] := by
  obtain ⟨segs, hne, hv, rfl⟩ := h
  intro hcontra
  exact joinSegs_ne_nil hne hv (by simpa using hcontra)

theorem takeWhile_append_all {q : Char → Bool} {a : List Char} (b : List Char)
    (h : ∀ x ∈ a, q x = true) : (a ++ b).takeWhile q = a ++ b.takeWhile q := by
  induction a with
  | nil => rfl
  | cons c r ih =>
    have hc := h c (List.mem_cons_self _ _)
    have ih2 := ih (fun x hx => h x (List.mem_cons_of_mem c hx))
    simp [List.takeWhile_cons, hc, ih2]

theorem basename_eq_last {X0 last : List Char} (hl : '/' ∉ last) :
    basename ((X0 ++ ['/']) ++ last) = last := by
  rw [basename, List.reverse_append, List.reverse_append]
  rw [takeWhile_append_all _ (fun x hx => by
    rw [List.mem_reverse] at hx
    simp only [bne_iff_ne, ne_eq, decide_eq_true_eq]
    intro hx2
    exact hl (hx2 ▸ hx))]
  simp

theorem dirname_of_shape {X0 last : List Char} (hl : '/' ∉ last) :
    dirname ((X0 ++ ['/']) ++ last) =
      (if (X0 ++ ['/']).all (fun c => c == '/') then X0 ++ ['/']
       else rstripSlashes (X0 ++ ['/'])) := by
  rw [dirname, basename_eq_last hl]
  have hlen : ((X0 ++ ['/']) ++ last).length - last.length = (X0 ++ ['/']).length := by
    simp only [List.length_append, List.length_cons, List.length_nil]
    omega
  rw [hlen, List.take_left]

theorem joinSegs_head_mem {i0 : List Char} {irest : List (List Char)} {h0 : Char}
    {t0 : List Char} (hi0 : i0 = h0 :: t0) : h0 ∈ joinSegs (i0 :: irest) := by
  cases irest with
  | nil =>
    rw [joinSegs, hi0]
    exact List.mem_cons_self _ _
  | cons j r =>
    rw [joinSegs, hi0]
    exact List.mem_append_left _ (List.mem_cons_self _ _)

theorem svnPath_dirname_strict_pfx {p : List Char} (h : SvnPath p) :
    dirname p <+: p ∧ dirname p ≠ p := by
  obtain ⟨segs, hne, hv, rfl⟩ := h
  have hsegs : segs = segs.dropLast ++ [segs.getLast hne] :=
    (List.dropLast_append_getLast hne).symm
  set last := segs.getLast hne with hlastdef
  set init := segs.dropLast with hinitdef
  have hvlast : last ≠ [] ∧ '/' ∉ last :=
    hv last (by rw [hsegs]; exact List.mem_append_right _ (List.mem_singleton.mpr rfl))
  cases hinit0 : init with
  | nil =>
    have hsegs1 : segs = [last] := by rw [hsegs, hinit0]; rfl
    have hjoin : joinSegs segs = last := by rw [hsegs1]; rfl
    have hd : dirname ('/' :: joinSegs segs) = ['/'] := by
      rw [hjoin, show ('/' :: last) = (([] : List Char) ++ ['/']) ++ last from by simp,
        dirname_of_shape hvlast.2]
      simp
    rw [hd, hjoin]
    refine ⟨⟨last, rfl⟩, fun hcontra => ?_⟩
    have h2 := (List.cons.injEq '/' [] '/' last).mp hcontra
    exact hvlast.1 h2.2.symm
  | cons i0 irest =>
    have hinitne : (i0 :: irest : List (List Char)) ≠ [] := by simp
    have hvinit : ∀ s ∈ (i0 :: irest : List (List Char)), s ≠ [] ∧ '/' ∉ s := by
      intro s hs
      exact hv s (by rw [hsegs, hinit0]; exact List.mem_append_left _ hs)
    have hjoin : joinSegs segs = joinSegs (i0 :: irest) ++ '/' :: last := by
      rw [hsegs, hinit0]
      exact joinSegs_snoc (i0 :: irest) last hinitne
    have hshape : ('/' :: joinSegs segs) =
        ((('/' :: joinSegs (i0 :: irest)) ++ ['/']) ++ last) := by
      rw [hjoin]
      simp
    obtain ⟨h0, t0, hi0⟩ := List.exists_cons_of_ne_nil (hvinit i0 (List.mem_cons_self _ _)).1
    have hh0 : h0 ≠ '/' := by
      intro hc
      apply (hvinit i0 (List.mem_cons_self _ _)).2
      rw [hi0, ← hc]
      exact List.mem_cons_self _ _
    have hmem0 : h0 ∈ ('/' :: joinSegs (i0 :: irest)) ++ ['/'] :=
      List.mem_append_left _ (List.mem_cons_of_mem _ (joinSegs_head_mem hi0))
    have hallfalse : ((('/' :: joinSegs (i0 :: irest)) ++ ['/']).all
        (fun c => c == '/')) = false := by
      by_cases hall : ((('/' :: joinSegs (i0 :: irest)) ++ ['/']).all
          (fun c => c == '/')) = true
      · exact absurd (by simpa using List.all_eq_true.mp hall h0 hmem0) hh0
      · exact eq_false_of_ne_true hall
    obtain ⟨d, ds, hds, hdne⟩ := joinSegs_rev_head (i0 :: irest) hinitne hvinit
    have hrst : rstripSlashes ('/' :: joinSegs (i0 :: irest)) =
        '/' :: joinSegs (i0 :: irest) := by
      apply rstripSlashes_eq_self_of_rev
      intro d' ds' hrev
      rw [List.reverse_cons, hds, List.cons_append] at hrev
      rw [← ((List.cons.injEq _ _ _ _).mp hrev).1]
      exact hdne
    have hd2 : dirname ('/' :: joinSegs segs) = '/' :: joinSegs (i0 :: irest) := by
      rw [hshape, dirname_of_shape hvlast.2, hallfalse]
      rw [if_neg (by simp), rstripSlashes_append_slash, hrst]
    rw [hd2]
    constructor
    · rw [hshape]
      exact (List.prefix_append _ ['/']).trans (List.prefix_append _ last)
    · intro hcontra
      have hlencontra := congrArg List.length hcontra
      rw [hshape] at hlencontra
      simp only [List.length_cons, List.length_append, List.length_nil] at hlencontra
      omega

/-! ### Claim C3: infrastructure — association-list (Python dict) lemmas -/

theorem alookup_aset {α : Type} (m : List (List Char × α)) (k q : List Char) (v : α) :
    alookup (aset m k v) q = if q = k then some v else alookup m q := by
  induction m with
  | nil =>
    by_cases h : q = k
    · simp [aset, alookup, h]
    · simp [aset, alookup, h, Ne.symm h]
  | cons kv rest ih =>
    obtain ⟨k', v'⟩ := kv
    by_cases h1 : k' = k
    · subst h1
      by_cases h2 : q = k'
      · simp [aset, alookup, h2]
      · simp [aset, alookup, h2, Ne.symm h2]
    · by_cases h2 : k' = q
      · subst h2
        have hqk : ¬ k' = k := h1
        simp [aset, alookup, h1, hqk, Ne.symm h1]
      · simp [aset, alookup, h1, h2, ih]

theorem aset_keys_new {α : Type} {m : List (List Char × α)} {k : List Char} (v : α)
    (h : k ∉ m.map Prod.fst) : (aset m k v).map Prod.fst = m.map Prod.fst ++ [k] := by
  induction m with
  | nil => rfl
  | cons kv rest ih =>
    obtain ⟨k', v'⟩ := kv
    have hk' : k' ≠ k := by
      intro hc
      exact h (by rw [hc]; exact List.mem_cons_self _ _)
    have hrest : k ∉ rest.map Prod.fst := fun hc => h (List.mem_cons_of_mem _ hc)
    simp [aset, hk', ih hrest]

theorem aappend_none {m : List (List Char × List (List Char))} {k x : List Char}
    (h : k ∉ m.map Prod.fst) : aappend m k x = none := by
  induction m with
  | nil => rfl
  | cons kv rest ih =>
    obtain ⟨k', v⟩ := kv
    have hk' : k' ≠ k := by
      intro hc
      exact h (by rw [hc]; exact List.mem_cons_self _ _)
    have hrest : k ∉ rest.map Prod.fst := fun hc => h (List.mem_cons_of_mem _ hc)
    simp [aappend, hk', ih hrest]

theorem aappend_some {m : List (List Char × List (List Char))} {k : List Char}
    (x : List Char) (h : k ∈ m.map Prod.fst) :
    ∃ m2, aappend m k x = some m2 ∧ m2.map Prod.fst = m.map Prod.fst ∧
      ∀ q, alookup m2 q =
        if q = k then (alookup m k).map (fun v => v ++ [x]) else alookup m q := by
  induction m with
  | nil => simp at h
  | cons kv rest ih =>
    obtain ⟨k', v⟩ := kv
    by_cases hk : k' = k
    · subst hk
      refine ⟨(k', v ++ [x]) :: rest, by simp [aappend], by simp, fun q => ?_⟩
      by_cases hq : q = k'
      · subst hq
        simp [alookup]
      · simp [alookup, hq, Ne.symm hq]
    · have h2 : k ∈ k' :: rest.map Prod.fst := by
        rw [List.map_cons] at h
        exact h
      have hrest : k ∈ rest.map Prod.fst := by
        rcases List.mem_cons.mp h2 with h' | h'
        · exact absurd h'.symm hk
        · exact h'
      obtain ⟨m2', hm2', hkeys', hlook'⟩ := ih hrest
      refine ⟨(k', v) :: m2', by simp [aappend, hk, hm2'], by simp [hkeys'], fun q => ?_⟩
      by_cases hq : k' = q
      · subst hq
        have hqk : ¬ k' = k := hk
        simp [alookup, hqk, Ne.symm hqk]
      · by_cases hq2 : q = k
        · subst hq2
          simp [alookup, hq, hk, hlook' q]
        · simp [alookup, hq, hq2, hlook' q]

/-! ### Claim C3: infrastructure — the loop invariant of `_get_walk_steps` -/

/-- The file entries of a listing. -/
def filesOf (l : List LEntry) : List LEntry := l.filter (fun e => !e.2)

/-- The directory entries of a listing. -/
def dirsOf (l : List LEntry) : List LEntry := l.filter (fun e => e.2)

/-- Basenames of the entries of `l` whose dirname is `k`, in order. -/
def childNames (l : List LEntry) (k : List Char) : List (List Char) :=
  (l.filter (fun e => dirname e.1 == k)).map (fun e => basename e.1)

theorem childNames_append (a b : List LEntry) (k : List Char) :
    childNames (a ++ b) k = childNames a k ++ childNames b k := by
  rw [childNames, List.filter_append, List.map_append]
  rfl

theorem childNames_single (e : LEntry) (k : List Char) :
    childNames [e] k = if dirname e.1 = k then [basename e.1] else [] := by
  by_cases h : dirname e.1 = k <;> simp [childNames, h]

theorem childNames_nil (k : List Char) : childNames [] k = [] := rfl

theorem dirsOf_append (a b : List LEntry) : dirsOf (a ++ b) = dirsOf a ++ dirsOf b :=
  List.filter_append _ _

theorem filesOf_append (a b : List LEntry) : filesOf (a ++ b) = filesOf a ++ filesOf b :=
  List.filter_append _ _

theorem dirsOf_single_dir {e : LEntry} (h : e.2 = true) : dirsOf [e] = [e] := by
  simp [dirsOf, List.filter_cons, h]

theorem dirsOf_single_file {e : LEntry} (h : e.2 = false) : dirsOf [e] = [] := by
  simp [dirsOf, List.filter_cons, h]

theorem filesOf_single_dir {e : LEntry} (h : e.2 = true) : filesOf [e] = [] := by
  simp [filesOf, List.filter_cons, h]

theorem filesOf_single_file {e : LEntry} (h : e.2 = false) : filesOf [e] = [e] := by
  simp [filesOf, List.filter_cons, h]

/-- The invariant relating the loop state of `_get_walk_steps` to the already
processed prefix of the sorted listing. -/
def WInv (pr : List LEntry) (st : WalkState) : Prop :=
  st.keysOrder = ['/'] :: (dirsOf pr).map Prod.fst ∧
  st.dirS.map Prod.fst = st.keysOrder ∧
  st.filesS.map Prod.fst = st.keysOrder ∧
  (∀ k, alookup st.dirS k =
    if k ∈ st.keysOrder then some (childNames (dirsOf pr) k) else none) ∧
  (∀ k, alookup st.filesS k =
    if k ∈ st.keysOrder then some (childNames (filesOf pr) k) else none)

/-- The well-formedness of the (sorted) listing consumed by the walker fold:
sorted, duplicate-free paths, well-formed paths, and closure under parents. -/
def GoodListing (L : List LEntry) : Prop :=
  L.Pairwise pathRel ∧ (L.map Prod.fst).Nodup ∧ (∀ e ∈ L, SvnPath e.1) ∧
  (∀ e ∈ L, dirname e.1 = ['/'] ∨ (dirname e.1, true) ∈ L)

theorem winv_init : WInv [] ⟨[['/']], [(['/'], [])], [(['/'], [])]⟩ := by
  refine ⟨rfl, rfl, rfl, fun k => ?_, fun k => ?_⟩ <;>
    · by_cases h : k = ['/']
      · simp [alookup, h, childNames, dirsOf, filesOf]
      · simp [alookup, h, Ne.symm h]

theorem processEntry_step {L pr rem : List LEntry} {e : LEntry} {st : WalkState}
    (hL : GoodListing L) (hsplit : L = pr ++ e :: rem) (hinv : WInv pr st) :
    ∃ st2, processEntry st e = some st2 ∧ WInv (pr ++ [e]) st2 := by
  obtain ⟨hpair, hnd, hsvn, hcl⟩ := hL
  obtain ⟨hko, hdk, hfk, hdl, hfl⟩ := hinv
  have hmemL : e ∈ L := by
    rw [hsplit]
    exact List.mem_append_right _ (List.mem_cons_self _ _)
  have hprL : ∀ c ∈ pr, c ∈ L := fun c hc => by
    rw [hsplit]
    exact List.mem_append_left _ hc
  have hsvne : SvnPath e.1 := hsvn e hmemL
  have hdpfx := svnPath_dirname_strict_pfx hsvne
  have hpr_le : ∀ c ∈ pr, strLe c.1 e.1 = true := by
    intro c hc
    have h1 := (List.pairwise_append.mp (by rwa [hsplit] at hpair)).2.2
    exact h1 c hc e (List.mem_cons_self _ _)
  have hrem_ge : ∀ b ∈ rem, strLe e.1 b.1 = true := by
    intro b hb
    have h1 := (List.pairwise_append.mp (by rwa [hsplit] at hpair)).2.1
    exact (List.pairwise_cons.mp h1).1 b hb
  have hnodup_pr_e : e.1 ∉ pr.map Prod.fst := by
    have h1 : ((pr.map Prod.fst) ++ ((e :: rem).map Prod.fst)).Nodup := by
      rw [← List.map_append, ← hsplit]
      exact hnd
    have h2 := (List.nodup_append.mp h1).2.2
    intro hc
    exact h2 hc (by simp)
  have hparent_mem : dirname e.1 ∈ st.keysOrder := by
    rcases hcl e hmemL with h | h
    · rw [hko, h]
      exact List.mem_cons_self _ _
    · have hdne : dirname e.1 ≠ e.1 := hdpfx.2
      have hin_pr : (dirname e.1, true) ∈ pr := by
        rw [hsplit] at h
        rcases List.mem_append.mp h with h' | h'
        · exact h'
        · rcases List.mem_cons.mp h' with h'' | h''
          · exact absurd (congrArg Prod.fst h'') hdne
          · exfalso
            have h1 : strLe e.1 (dirname e.1) = true := hrem_ge _ h''
            have h2 : strLe (dirname e.1) e.1 = true := strLe_of_pref hdpfx.1
            exact hdne (strLe_antisymm _ _ h2 h1)
      rw [hko]
      exact List.mem_cons_of_mem _
        (List.mem_map.mpr ⟨(dirname e.1, true), List.mem_filter.mpr ⟨hin_pr, rfl⟩, rfl⟩)
  have hnochild : ∀ c ∈ pr, dirname c.1 ≠ e.1 := by
    intro c hc hdc
    have hsvnc := hsvn c (hprL c hc)
    have hp := (svnPath_dirname_strict_pfx hsvnc).1
    rw [hdc] at hp
    have h1 : strLe e.1 c.1 = true := strLe_of_pref hp
    have h2 : strLe c.1 e.1 = true := hpr_le c hc
    have heq : c.1 = e.1 := strLe_antisymm _ _ h2 h1
    exact (svnPath_dirname_strict_pfx hsvnc).2 (by rw [hdc, heq])
  have hcd_nil : childNames (dirsOf pr) e.1 = [] := by
    have hfilter : (dirsOf pr).filter (fun c => dirname c.1 == e.1) = [] := by
      rw [List.filter_eq_nil_iff]
      intro c hc
      simp only [beq_iff_eq]
      exact hnochild c (List.mem_of_mem_filter hc)
    rw [childNames, hfilter, List.map_nil]
  have hcf_nil : childNames (filesOf pr) e.1 = [] := by
    have hfilter : (filesOf pr).filter (fun c => dirname c.1 == e.1) = [] := by
      rw [List.filter_eq_nil_iff]
      intro c hc
      simp only [beq_iff_eq]
      exact hnochild c (List.mem_of_mem_filter hc)
    rw [childNames, hfilter, List.map_nil]
  have hknotin : e.1 ∉ st.keysOrder := by
    rw [hko]
    intro hmem
    rcases List.mem_cons.mp hmem with h | h
    · exact svnPath_ne_root hsvne h
    · obtain ⟨c, hc, hc1⟩ := List.mem_map.mp h
      exact hnodup_pr_e (by
        rw [← hc1]
        exact List.mem_map.mpr ⟨c, List.mem_of_mem_filter hc, rfl⟩)
  by_cases he2 : e.2 = true
  · have hkdS : (aset st.dirS e.1 []).map Prod.fst = st.keysOrder ++ [e.1] := by
      rw [aset_keys_new _ (by rw [hdk]; exact hknotin), hdk]
    have hkfS : (aset st.filesS e.1 []).map Prod.fst = st.keysOrder ++ [e.1] := by
      rw [aset_keys_new _ (by rw [hfk]; exact hknotin), hfk]
    have hparent2 : dirname e.1 ∈ (aset st.dirS e.1 []).map Prod.fst := by
      rw [hkdS]
      exact List.mem_append_left _ hparent_mem
    obtain ⟨dS2, happ, hkeys2, hlook2⟩ := aappend_some (basename e.1) hparent2
    refine ⟨⟨st.keysOrder ++ [e.1], dS2, aset st.filesS e.1 []⟩, ?_, ?_⟩
    · simp [processEntry, he2, happ]
    · refine ⟨?_, ?_, ?_, fun k => ?_, fun k => ?_⟩
      · show st.keysOrder ++ [e.1] = _
        rw [hko, dirsOf_append, dirsOf_single_dir he2]
        simp
      · rw [hkeys2, hkdS]
      · exact hkfS
      · rw [hlook2 k]
        by_cases hk1 : k = dirname e.1
        · subst hk1
          rw [if_pos rfl, alookup_aset, if_neg hdpfx.2, hdl _, if_pos hparent_mem,
            if_pos (List.mem_append_left _ hparent_mem)]
          simp [dirsOf_append, dirsOf_single_dir he2, childNames_append, childNames_single]
        · rw [if_neg hk1, alookup_aset]
          by_cases hk2 : k = e.1
          · subst hk2
            rw [if_pos rfl, if_pos (List.mem_append_right _ (by simp))]
            simp [dirsOf_append, dirsOf_single_dir he2, childNames_append,
              childNames_single, hcd_nil, hdpfx.2]
          · rw [if_neg hk2, hdl k]
            have hmem_iff : (k ∈ st.keysOrder ++ [e.1]) ↔ k ∈ st.keysOrder := by
              rw [List.mem_append]
              constructor
              · rintro (h | h)
                · exact h
                · exact absurd (List.mem_singleton.mp h) hk2
              · exact Or.inl
            by_cases hk3 : k ∈ st.keysOrder
            · rw [if_pos hk3, if_pos (hmem_iff.mpr hk3)]
              simp [dirsOf_append, dirsOf_single_dir he2, childNames_append,
                childNames_single, Ne.symm hk1]
            · rw [if_neg hk3, if_neg (fun hc => hk3 (hmem_iff.mp hc))]
      · rw [alookup_aset]
        by_cases hk2 : k = e.1
        · subst hk2
          rw [if_pos rfl, if_pos (List.mem_append_right _ (by simp))]
          simp [filesOf_append, filesOf_single_dir he2, childNames_append, childNames_nil,
            hcf_nil]
        · rw [if_neg hk2, hfl k]
          have hmem_iff : (k ∈ st.keysOrder ++ [e.1]) ↔ k ∈ st.keysOrder := by
            rw [List.mem_append]
            constructor
            · rintro (h | h)
              · exact h
              · exact absurd (List.mem_singleton.mp h) hk2
            · exact Or.inl
          by_cases hk3 : k ∈ st.keysOrder
          · rw [if_pos hk3, if_pos (hmem_iff.mpr hk3)]
            simp [filesOf_append, filesOf_single_dir he2, childNames_append, childNames_nil]
          · rw [if_neg hk3, if_neg (fun hc => hk3 (hmem_iff.mp hc))]
  · have he2' : e.2 = false := by simpa using he2
    have hparent2 : dirname e.1 ∈ st.filesS.map Prod.fst := by
      rw [hfk]
      exact hparent_mem
    obtain ⟨fS2, happ, hkeys2, hlook2⟩ := aappend_some (basename e.1) hparent2
    refine ⟨⟨st.keysOrder, st.dirS, fS2⟩, ?_, ?_⟩
    · simp [processEntry, he2', happ]
    · refine ⟨?_, ?_, ?_, fun k => ?_, fun k => ?_⟩
      · show st.keysOrder = _
        rw [hko, dirsOf_append, dirsOf_single_file he2']
        simp
      · rw [hdk]
      · rw [hkeys2, hfk]
      · rw [hdl k]
        rw [dirsOf_append, dirsOf_single_file he2', List.append_nil]
      · rw [hlook2 k]
        by_cases hk1 : k = dirname e.1
        · subst hk1
          rw [if_pos rfl, hfl _, if_pos hparent_mem, if_pos hparent_mem]
          simp [filesOf_append, filesOf_single_file he2', childNames_append,
            childNames_single]
        · rw [if_neg hk1, hfl k]
          by_cases hk3 : k ∈ st.keysOrder
          · rw [if_pos hk3, if_pos hk3]
            simp [filesOf_append, filesOf_single_file he2', childNames_append,
              childNames_single, Ne.symm hk1]
          · rw [if_neg hk3, if_neg hk3]

theorem foldl_processEntry {L : List LEntry} (hL : GoodListing L) :
    ∀ (rem pr : List LEntry) (st : WalkState), L = pr ++ rem → WInv pr st →
      ∃ st2, List.foldlM processEntry st rem = some st2 ∧ WInv L st2 := by
  intro rem
  induction rem with
  | nil =>
    intro pr st hsplit hinv
    refine ⟨st, rfl, ?_⟩
    rw [hsplit, List.append_nil]
    exact hinv
  | cons e rem ih =>
    intro pr st hsplit hinv
    obtain ⟨st2, hpe, hinv2⟩ := processEntry_step hL hsplit hinv
    obtain ⟨st3, hfold, hinv3⟩ := ih (pr ++ [e]) st2 (by rw [hsplit]; simp) hinv2
    refine ⟨st3, ?_, hinv3⟩
    rw [show List.foldlM processEntry st (e :: rem) =
        processEntry st e >>= fun s => List.foldlM processEntry s rem from rfl, hpe]
    exact hfold

theorem flatMap_congr_mem {α β : Type} {ks : List α} {f g : α → List β}
    (h : ∀ k ∈ ks, f k = g k) : ks.flatMap f = ks.flatMap g := by
  induction ks with
  | nil => rfl
  | cons k ks ih =>
    rw [List.flatMap_cons, List.flatMap_cons, h k (List.mem_cons_self _ _),
      ih (fun k' hk' => h k' (List.mem_cons_of_mem _ hk'))]

theorem group_pairs_perm {β : Type} [DecidableEq β]
    (key : β → List Char) (val : β → List Char) :
    ∀ (ks : List (List Char)) (xs : List β), ks.Nodup → (∀ x ∈ xs, key x ∈ ks) →
      List.Perm
        (ks.flatMap fun k => (xs.filter (fun x => key x == k)).map (fun x => (k, val x)))
        (xs.map (fun x => (key x, val x))) := by
  intro ks
  induction ks with
  | nil =>
    intro xs _ hcov
    have hxs : xs = [] := List.eq_nil_iff_forall_not_mem.mpr
      (fun x hx => by simpa using hcov x hx)
    rw [hxs]
    rfl
  | cons k ks ih =>
    intro xs hnd hcov
    have hknotin : k ∉ ks := (List.nodup_cons.mp hnd).1
    have hndks : ks.Nodup := (List.nodup_cons.mp hnd).2
    rw [List.flatMap_cons]
    have hmapA : (xs.filter (fun x => key x == k)).map (fun x => (k, val x)) =
        (xs.filter (fun x => key x == k)).map (fun x => (key x, val x)) := by
      apply List.map_eq_map_iff.mpr
      intro x hx
      have hkx : key x = k := by simpa using (List.mem_filter.mp hx).2
      rw [hkx]
    have hcongrB : (ks.flatMap fun k' =>
          (xs.filter (fun x => key x == k')).map (fun x => (k', val x))) =
        (ks.flatMap fun k' =>
          ((xs.filter (fun x => !(key x == k))).filter (fun x => key x == k')).map
            (fun x => (k', val x))) := by
      apply flatMap_congr_mem
      intro k' hk'
      have hkk' : k' ≠ k := fun hc => hknotin (hc ▸ hk')
      rw [List.filter_filter]
      congr 1
      apply List.filter_congr
      intro x _
      by_cases hx : key x = k'
      · simp [hx, hkk']
      · simp [hx]
    have hcovB : ∀ x ∈ xs.filter (fun x => !(key x == k)), key x ∈ ks := by
      intro x hx
      have h1 := hcov x (List.mem_of_mem_filter hx)
      have h2 : ¬ (key x == k) = true := by simpa using (List.mem_filter.mp hx).2
      rcases List.mem_cons.mp h1 with h | h
      · exact absurd (by simp [h]) h2
      · exact h
    have hperm2 := ih (xs.filter (fun x => !(key x == k))) hndks hcovB
    rw [hmapA, hcongrB]
    have step2 : List.Perm
        ((xs.filter (fun x => key x == k)).map (fun x => (key x, val x)) ++
          (ks.flatMap fun k' =>
            ((xs.filter (fun x => !(key x == k))).filter (fun x => key x == k')).map
              (fun x => (k', val x))))
        ((xs.filter (fun x => key x == k)).map (fun x => (key x, val x)) ++
          (xs.filter (fun x => !(key x == k))).map (fun x => (key x, val x))) :=
      List.Perm.append_left _ hperm2
    have step34 : List.Perm
        ((xs.filter (fun x => key x == k)).map (fun x => (key x, val x)) ++
          (xs.filter (fun x => !(key x == k))).map (fun x => (key x, val x)))
        (xs.map (fun x => (key x, val x))) := by
      rw [← List.map_append]
      exact List.Perm.map _ (List.filter_append_perm _ xs)
    exact step2.trans step34

theorem goodListing_of_sorted (l : List LEntry)
    (hwf : ∀ e ∈ l, SvnPath e.1)
    (hnd : (l.map Prod.fst).Nodup)
    (hcl : ∀ e ∈ l, dirname e.1 = ['/'] ∨ (dirname e.1, true) ∈ l) :
    GoodListing (List.insertionSort pathRel l) := by
  have hperm : List.Perm (List.insertionSort pathRel l) l := List.perm_insertionSort pathRel l
  refine ⟨List.sorted_insertionSort pathRel l, ?_, ?_, ?_⟩
  · exact (List.Perm.nodup_iff (hperm.map Prod.fst)).mpr hnd
  · intro e he
    exact hwf e (hperm.subset he)
  · intro e he
    rcases hcl e (hperm.subset he) with h | h
    · exact Or.inl h
    · exact Or.inr (hperm.mem_iff.mpr h)

theorem keysOrder_nodup {L : List LEntry} (hL : GoodListing L) :
    (['/'] :: (dirsOf L).map Prod.fst).Nodup := by
  rw [List.nodup_cons]
  constructor
  · intro hmem
    obtain ⟨c, hc, hc1⟩ := List.mem_map.mp hmem
    exact svnPath_ne_root (hL.2.2.1 c (List.mem_of_mem_filter hc)) hc1
  · exact hL.2.1.sublist ((List.filter_sublist L).map Prod.fst)

theorem walkSteps_spec (l : List LEntry)
    (hwf : ∀ e ∈ l, SvnPath e.1)
    (hnd : (l.map Prod.fst).Nodup)
    (hcl : ∀ e ∈ l, dirname e.1 = ['/'] ∨ (dirname e.1, true) ∈ l) :
    ∃ steps, walkSteps l = some steps ∧
      steps.map (fun s => s.1) =
        ['/'] :: (dirsOf (List.insertionSort pathRel l)).map Prod.fst ∧
      List.Perm (steps.flatMap (fun s => s.2.2.map (fun n => (s.1, n))))
        ((filesOf l).map (fun e => (dirname e.1, basename e.1))) := by
  have hperm : List.Perm (List.insertionSort pathRel l) l := List.perm_insertionSort pathRel l
  have hL : GoodListing (List.insertionSort pathRel l) := goodListing_of_sorted l hwf hnd hcl
  obtain ⟨st2, hfold, hinv⟩ := foldl_processEntry hL (List.insertionSort pathRel l) []
    ⟨[['/']], [(['/'], [])], [(['/'], [])]⟩ rfl winv_init
  obtain ⟨hko, hdk, hfk, hdl, hfl⟩ := hinv
  refine ⟨st2.keysOrder.map (fun k =>
      (k, (alookup st2.dirS k).getD [], (alookup st2.filesS k).getD [])), ?_, ?_, ?_⟩
  · rw [walkSteps]
    show (match List.foldlM processEntry
        ⟨[['/']], [(['/'], [])], [(['/'], [])]⟩ (List.insertionSort pathRel l) with
      | none => none
      | some st => some (st.keysOrder.map fun k =>
          (k, (alookup st.dirS k).getD [], (alookup st.filesS k).getD []))) = _
    rw [hfold]
  · rw [List.map_map]
    show st2.keysOrder.map (fun k => k) = _
    rw [List.map_id', hko]
  · have hcov : ∀ x ∈ filesOf (List.insertionSort pathRel l),
        dirname x.1 ∈ st2.keysOrder := by
      intro x hx
      have hxL : x ∈ List.insertionSort pathRel l := List.mem_of_mem_filter hx
      rcases hL.2.2.2 x hxL with h | h
      · rw [hko, h]
        exact List.mem_cons_self _ _
      · rw [hko]
        exact List.mem_cons_of_mem _
          (List.mem_map.mpr ⟨(dirname x.1, true), List.mem_filter.mpr ⟨h, rfl⟩, rfl⟩)
    have hflat : (st2.keysOrder.map (fun k =>
          (k, (alookup st2.dirS k).getD [], (alookup st2.filesS k).getD []))).flatMap
          (fun s => s.2.2.map (fun n => (s.1, n))) =
        st2.keysOrder.flatMap (fun k =>
          ((filesOf (List.insertionSort pathRel l)).filter
            (fun x => dirname x.1 == k)).map (fun x => (k, basename x.1))) := by
      rw [List.flatMap_map]
      apply flatMap_congr_mem
      intro k hk
      show ((alookup st2.filesS k).getD []).map (fun n => (k, n)) = _
      rw [hfl k, if_pos hk]
      show (childNames (filesOf (List.insertionSort pathRel l)) k).map (fun n => (k, n)) = _
      rw [childNames, List.map_map]
      rfl
    rw [hflat]
    have hgroup := group_pairs_perm (fun x : LEntry => dirname x.1)
      (fun x : LEntry => basename x.1) st2.keysOrder
      (filesOf (List.insertionSort pathRel l)) (by rw [hko]; exact keysOrder_nodup hL) hcov
    refine hgroup.trans ?_
    exact List.Perm.map _ (hperm.filter _)

/-- C3: for every walk of the adapter root over a well-formed recursive
listing (well-formed paths, duplicate-free, closed under parents — what a
real svn recursive listing provides), `_get_walk_steps` succeeds and: the
root step `/` is emitted first even for the empty tree, the step paths are
duplicate-free and are exactly the directories reachable from the root (the
root itself plus each listed directory) — so each appears exactly once as a
step — and the pairs
(step path, file child name) over all steps are a permutation of the
(dirname, basename) of the file entries returned by the single recursive
listing. -/
theorem walker_steps_invariant (l : List LEntry)
    (hwf : ∀ e ∈ l, SvnPath e.1)
    (hnd : (l.map Prod.fst).Nodup)
    (hcl : ∀ e ∈ l, dirname e.1 = ['/'] ∨ (dirname e.1, true) ∈ l) :
    ∃ steps, walkSteps l = some steps ∧
      (steps.map (fun s => s.1)).head? = some ['/'] ∧
      (steps.map (fun s => s.1)).Nodup ∧
      (∀ d, d ∈ steps.map (fun s => s.1) ↔ (d = ['/'] ∨ (d, true) ∈ l)) ∧
      List.Perm (steps.flatMap (fun s => s.2.2.map (fun n => (s.1, n))))
        ((filesOf l).map (fun e => (dirname e.1, basename e.1))) := by
  obtain ⟨steps, h1, h2, h3⟩ := walkSteps_spec l hwf hnd hcl
  have hL := goodListing_of_sorted l hwf hnd hcl
  have hperm : List.Perm (List.insertionSort pathRel l) l := List.perm_insertionSort pathRel l
  have hnd2 := keysOrder_nodup hL
  have hmem_iff : ∀ d,
      (d ∈ ['/'] :: (dirsOf (List.insertionSort pathRel l)).map Prod.fst) ↔
        (d = ['/'] ∨ (d, true) ∈ l) := by
    intro d
    rw [List.mem_cons]
    constructor
    · rintro (h | h)
      · exact Or.inl h
      · obtain ⟨c, hc, hc1⟩ := List.mem_map.mp h
        rcases c with ⟨c1, c2⟩
        have hcd : c2 = true := by simpa using (List.mem_filter.mp hc).2
        have hcl2 : (c1, c2) ∈ l := hperm.subset (List.mem_of_mem_filter hc)
        have hc1' : c1 = d := hc1
        subst hc1'
        subst hcd
        exact Or.inr hcl2
    · rintro (rfl | h)
      · exact Or.inl rfl
      · exact Or.inr (List.mem_map.mpr
          ⟨(d, true), List.mem_filter.mpr ⟨hperm.mem_iff.mpr h, rfl⟩, rfl⟩)
  refine ⟨steps, h1, ?_, ?_, ?_, h3⟩
  · rw [h2]
    rfl
  · rw [h2]
    exact hnd2
  · intro d
    rw [h2]
    exact hmem_iff d

/-- The concrete walk scenario of the spec (section 8): `foo` with files
`bar1`, `bar2` and `foo2` with files `bar1`, `bar2`. -/
def exampleListing : List LEntry :=
  [(toL "/foo", true), (toL "/foo/bar1", false), (toL "/foo/bar2", false),
   (toL "/foo2", true), (toL "/foo2/bar1", false), (toL "/foo2/bar2", false)]

/-- Witness for C3 at the spec's concrete scenario. -/
theorem walker_steps_invariant_witness :
    ∃ steps, walkSteps exampleListing = some steps ∧
      (steps.map (fun s => s.1)).head? = some ['/'] ∧
      (steps.map (fun s => s.1)).Nodup ∧
      toL "/foo" ∈ steps.map (fun s => s.1) := by
  have hwf : ∀ e ∈ exampleListing, SvnPath e.1 := by
    intro e he
    simp only [exampleListing, List.mem_cons] at he
    rcases he with rfl | rfl | rfl | rfl | rfl | rfl | hfalse
    · exact ⟨[toL "foo"], by decide, by decide, by decide⟩
    · exact ⟨[toL "foo", toL "bar1"], by decide, by decide, by decide⟩
    · exact ⟨[toL "foo", toL "bar2"], by decide, by decide, by decide⟩
    · exact ⟨[toL "foo2"], by decide, by decide, by decide⟩
    · exact ⟨[toL "foo2", toL "bar1"], by decide, by decide, by decide⟩
    · exact ⟨[toL "foo2", toL "bar2"], by decide, by decide, by decide⟩
    · exact absurd hfalse (by simp)
  obtain ⟨steps, h1, h2, h3, h4, h5⟩ :=
    walker_steps_invariant exampleListing hwf (by decide) (by decide)
  exact ⟨steps, h1, h2, h3, (h4 (toL "/foo")).mpr (Or.inr (by decide))⟩

/-! ### Claim C9: only root walks are allowed -/

/-- C9: `SvnWalker.walk` on any path other than `/` fails with `Unsupported`
(callers must scope a sub-adapter); `walk('/')` proceeds on the result of the
single recursive listing, and on a well-formed listing it succeeds with the
regrouped steps. -/
theorem walk_root_only (path : List Char) (listing : List LEntry) :
    (path ≠ toL "/" → SvnWalker_walk path listing = Except.error (FsError.unsupported
      (toL "Only walking from / is supported. Use opendir() to walk subdirs"))) ∧
    SvnWalker_walk (toL "/") listing = Except.ok (walkSteps listing) ∧
    ((∀ e ∈ listing, SvnPath e.1) → (listing.map Prod.fst).Nodup →
      (∀ e ∈ listing, dirname e.1 = ['/'] ∨ (dirname e.1, true) ∈ listing) →
      ∃ steps, SvnWalker_walk (toL "/") listing = Except.ok (some steps)) := by
  refine ⟨fun h => ?_, ?_, fun hwf hnd hcl => ?_⟩
  · rw [SvnWalker_walk, if_neg h]
  · rw [SvnWalker_walk, if_pos rfl]
  · obtain ⟨steps, h1, -, -⟩ := walkSteps_spec listing hwf hnd hcl
    refine ⟨steps, ?_⟩
    rw [SvnWalker_walk, if_pos rfl, h1]

/-- Witness for C9: walking `/foo` fails with `Unsupported`; walking `/`
over the empty listing succeeds. -/
theorem walk_root_only_witness :
    SvnWalker_walk (toL "/foo") [] = Except.error (FsError.unsupported
      (toL "Only walking from / is supported. Use opendir() to walk subdirs")) ∧
    ∃ steps, SvnWalker_walk (toL "/") ([] : List LEntry) = Except.ok (some steps) :=
  ⟨(walk_root_only (toL "/foo") []).1 (by decide),
   (walk_root_only (toL "/") []).2.2 (by simp) (by simp) (by simp)⟩
